import Mathlib

/-!
Verification of the per-pixel image-processing core of the background-removal
repository (file src/utils/backgroundRemoval.ts, class BackgroundRemovalAI).

Shallow embedding conventions:
* An ImageData value is modelled by PixelBuffer: width, height and the flat
  RGBA sample list (row-major, 4 samples per pixel).  Sample reads out of
  range return 0, matching the zero-initialised Uint8ClampedArray buffers the
  code allocates; all theorems about well-formed images carry the invariant
  data.length = width * height * 4 where it matters.
* JavaScript numbers are embedded as exact integers/reals: loop indices and
  byte samples as Nat/Int, float intermediates (Math.sqrt, Math.exp,
  divisions) as real numbers.  Uint8ClampedArray stores round ties-to-even
  and clamp to [0,255] (ECMAScript ToUint8Clamp); Math.round rounds half up,
  which is Mathlib's round.
-/

/-- Model of ImageData: width, height, and flat row-major RGBA byte samples. -/
structure PixelBuffer where
  width : Nat
  height : Nat
  data : List Nat
deriving Repr, DecidableEq

/-- Read a sample at a (possibly out-of-range) integer index; out-of-range
reads yield 0, matching zero-initialised buffers.  Negative indices never
occur at the call sites the code actually exercises. -/
def byteAt (d : List Nat) (i : Int) : Nat :=
  if 0 ≤ i then d.getD i.toNat 0 else 0

/-- Round half to even on the reals (ECMAScript ToUint8Clamp rounding). -/
noncomputable def roundTiesToEven (x : ℝ) : ℤ :=
  if x - ⌊x⌋ < 1 / 2 then ⌊x⌋
  else if 1 / 2 < x - ⌊x⌋ then ⌊x⌋ + 1
  else if Even ⌊x⌋ then ⌊x⌋ else ⌊x⌋ + 1

/-- ECMAScript ToUint8Clamp: clamp to [0,255], rounding ties to even. -/
noncomputable def toUint8Clamp (x : ℝ) : ℕ :=
  if x ≤ 0 then 0 else if 255 ≤ x then 255 else (roundTiesToEven x).toNat

/-! ### Background Color Segmenter (colorSegmentation, lines 50-128) -/

/-- Quantization to 32-unit buckets: Math.floor(c / 32) * 32. -/
def quantize (c : Nat) : Nat := c / 32 * 32

/-- Quantized (r,g,b) of the pixel whose flat sample base index is i
(the code's colorKey string, as a triple). -/
def qcolorAt (d : List Nat) (i : Nat) : Nat × Nat × Nat :=
  (quantize (d.getD i 0), quantize (d.getD (i + 1) 0), quantize (d.getD (i + 2) 0))

/-- Raw (unquantized) (r,g,b) of the pixel at flat sample base index i. -/
def rawColorAt (d : List Nat) (i : Nat) : Nat × Nat × Nat :=
  (d.getD i 0, d.getD (i + 1) 0, d.getD (i + 2) 0)

/-- Histogram bump: JavaScript object property update preserves insertion
order of first appearance, so the histogram is an insertion-ordered
association list. -/
def bump (counts : List ((Nat × Nat × Nat) × Nat)) (k : Nat × Nat × Nat) :
    List ((Nat × Nat × Nat) × Nat) :=
  match counts with
  | [] => [(k, 1)]
  | (k', n) :: rest => if k' = k then (k', n + 1) :: rest else (k', n) :: bump rest k

/-- Global color histogram over all pixels (computed by the code at lines
57-64 but never consulted afterwards; kept for faithfulness). -/
def colorCounts (buf : PixelBuffer) : List ((Nat × Nat × Nat) × Nat) :=
  (List.range (buf.data.length / 4)).foldl (fun m p => bump m (qcolorAt buf.data (p * 4))) []

/-- Border pixel indices pushed by the row loops (lines 71-74): per x, the
top-edge pixel then the bottom-edge pixel. -/
def edgePixelsRows (w h : Nat) : List Nat :=
  (List.range w).flatMap fun x => [0 * w + x, (h - 1) * w + x]

/-- Border pixel indices pushed by the column loops (lines 75-78): per y,
the left-edge pixel then the right-edge pixel. -/
def edgePixelsCols (w h : Nat) : List Nat :=
  (List.range h).flatMap fun y => [y * w + 0, y * w + (w - 1)]

/-- Border pixel indices in the push order of the code: the row loops then
the column loops.  Corners are pushed by both phases. -/
def edgePixels (w h : Nat) : List Nat :=
  edgePixelsRows w h ++ edgePixelsCols w h

/-- Border-only histogram of quantized colors, in insertion order. -/
def edgeColorCounts (buf : PixelBuffer) : List ((Nat × Nat × Nat) × Nat) :=
  (edgePixels buf.width buf.height).foldl (fun m p => bump m (qcolorAt buf.data (p * 4))) []

/-- Top-3 most frequent border colors.  JavaScript's sort is stable and the
comparator (b - a) orders by count descending, so ties keep first-appearance
order; List.insertionSort with this relation computes exactly that. -/
def sortedEdgeColors (buf : PixelBuffer) : List (Nat × Nat × Nat) :=
  (((edgeColorCounts buf).insertionSort fun a b => b.2 ≤ a.2).take 3).map Prod.fst

/-- The background color set (insertion into a JS Set preserves the top-3
order; only membership is ever used). -/
def backgroundColors (buf : PixelBuffer) : List (Nat × Nat × Nat) :=
  sortedEdgeColors buf

/-- Squared Euclidean distance between two color triples. -/
def dist2 (a b : Nat × Nat × Nat) : ℤ :=
  ((a.1 : ℤ) - b.1) ^ 2 + ((a.2.1 : ℤ) - b.2.1) ^ 2 + ((a.2.2 : ℤ) - b.2.2) ^ 2

/-- Classification of one quantized pixel color: exact bucket match, or
Euclidean distance below 80 to some background bucket.  The code compares
Math.sqrt(s) < 80 on integer s, which is exactly s < 6400 (the bridging
lemma sqrt_lt_80_iff below). -/
def isBackground (bg : List (Nat × Nat × Nat)) (q : Nat × Nat × Nat) : Bool :=
  bg.contains q || bg.any fun c => dist2 q c < 6400

/-- colorSegmentation: same RGB, alpha 0 for background pixels, 255
otherwise.  The per-pixel colors fed to the classifier are the quantized
r,g,b recomputed at lines 100-102; note that the distance check at lines
111-113 therefore runs on quantized coordinates. -/
def colorSegmentation (buf : PixelBuffer) : PixelBuffer :=
  let bg := backgroundColors buf
  { width := buf.width, height := buf.height,
    data := (List.range buf.data.length).map fun j =>
      if j % 4 = 3 then
        (if isBackground bg (qcolorAt buf.data (j - 3)) then 0 else 255)
      else buf.data.getD j 0 }

/-! ### Mask Refiner, morphological opening (morphologicalOperations,
lines 131-195).  The output buffer is zero-initialised; lines 138-142 copy
only the R,G,B samples, so every alpha sample the two interior loops do not
write stays 0. -/

/-- Erosion value at interior pixel (x,y): minimum alpha over the 3x3
neighbourhood, accumulated from the initial value 255 (line 154). -/
def minAlpha33 (d : List Nat) (w : Nat) (x y : Nat) : Nat :=
  (List.range 9).foldl
    (fun m i =>
      min m (byteAt d ((((y : ℤ) + (i : ℤ) / 3 - 1) * w + ((x : ℤ) + (i : ℤ) % 3 - 1)) * 4 + 3)))
    255

/-- Dilation value at interior pixel (x,y): maximum alpha over the 3x3
neighbourhood, accumulated from the initial value 0 (line 178). -/
def maxAlpha33 (d : List Nat) (w : Nat) (x y : Nat) : Nat :=
  (List.range 9).foldl
    (fun m i =>
      max m (byteAt d ((((y : ℤ) + (i : ℤ) / 3 - 1) * w + ((x : ℤ) + (i : ℤ) % 3 - 1)) * 4 + 3)))
    0

/-- Interior-pixel test for the 1-pixel margin loops
(for y = 1; y < height - 1; ...): truncated Nat subtraction agrees with the
JS comparison here because the lower bound 1 already excludes 0. -/
def interior1 (w h x y : Nat) : Prop :=
  1 ≤ x ∧ x < w - 1 ∧ 1 ≤ y ∧ y < h - 1

instance (w h x y : Nat) : Decidable (interior1 w h x y) := by
  unfold interior1; infer_instance

/-- Erosion pass output (processedData): RGB copied, interior alpha eroded,
all other alpha samples left at the zero initialisation. -/
def erodedData (buf : PixelBuffer) : List Nat :=
  (List.range buf.data.length).map fun j =>
    if j % 4 = 3 then
      (if interior1 buf.width buf.height (j / 4 % buf.width) (j / 4 / buf.width) then
        minAlpha33 buf.data buf.width (j / 4 % buf.width) (j / 4 / buf.width)
      else 0)
    else buf.data.getD j 0

/-- morphologicalOperations: erosion into processedData, then dilation of
the eroded alpha into a copy of processedData. -/
def morphologicalOperations (buf : PixelBuffer) : PixelBuffer :=
  let e := erodedData buf
  { width := buf.width, height := buf.height,
    data := (List.range buf.data.length).map fun j =>
      if j % 4 = 3 then
        (if interior1 buf.width buf.height (j / 4 % buf.width) (j / 4 / buf.width) then
          maxAlpha33 e buf.width (j / 4 % buf.width) (j / 4 / buf.width)
        else e.getD j 0)
      else e.getD j 0 }

/-! ### Edge Detector (detectEdges, lines 12-47).  The grayscale value is
(r+g+b)/3; writing T(x,y) = r+g+b for the integer channel sum, the two
Sobel accumulators are pixelX = sobelAccX/3 and pixelY = sobelAccY/3, so the
magnitude is sqrt(sobelAccX^2 + sobelAccY^2)/3.  The output buffer is
zero-initialised and only interior pixels are written. -/

/-- The Sobel X kernel, in the code's flat i = 0..8 order. -/
def sobelX : List ℤ := [-1, 0, 1, -2, 0, 2, -1, 0, 1]

/-- The Sobel Y kernel, in the code's flat i = 0..8 order. -/
def sobelY : List ℤ := [-1, -2, -1, 0, 0, 0, 1, 2, 1]

/-- Three times the grayscale value at (x,y): the channel sum r+g+b. -/
def grayTimes3 (d : List Nat) (w : Nat) (x y : ℤ) : ℤ :=
  (byteAt d ((y * w + x) * 4) : ℤ) + byteAt d ((y * w + x) * 4 + 1) +
    byteAt d ((y * w + x) * 4 + 2)

/-- Three times the code's pixelX accumulator at interior pixel (x,y):
the kernel offsets are xOffset = i % 3 - 1, yOffset = i / 3 - 1. -/
def sobelAccX (d : List Nat) (w : Nat) (x y : Nat) : ℤ :=
  (List.range 9).foldl
    (fun acc (i : ℕ) =>
      acc + grayTimes3 d w ((x : ℤ) + (i : ℤ) % 3 - 1) ((y : ℤ) + (i : ℤ) / 3 - 1) *
        sobelX.getD i 0)
    0

/-- Three times the code's pixelY accumulator at interior pixel (x,y). -/
def sobelAccY (d : List Nat) (w : Nat) (x y : Nat) : ℤ :=
  (List.range 9).foldl
    (fun acc (i : ℕ) =>
      acc + grayTimes3 d w ((x : ℤ) + (i : ℤ) % 3 - 1) ((y : ℤ) + (i : ℤ) / 3 - 1) *
        sobelY.getD i 0)
    0

/-- The byte actually stored for a magnitude: clamped rounding of
sqrt(p^2 + q^2)/3. -/
noncomputable def magStored (p q : ℤ) : ℕ :=
  toUint8Clamp (Real.sqrt (((p ^ 2 + q ^ 2 : ℤ) : ℝ)) / 3)

/-- Executable form of magStored; magStored_eq below proves it equal. -/
def magStoredNat (p q : ℤ) : ℕ :=
  min ((Nat.sqrt ((4 * (p ^ 2 + q ^ 2)).toNat) + 3) / 6) 255

/-- detectEdges: zero-initialised output, interior pixels get
R = G = B = stored magnitude and A = 255; every border sample stays 0. -/
noncomputable def detectEdges (buf : PixelBuffer) : PixelBuffer :=
  { width := buf.width, height := buf.height,
    data := (List.range buf.data.length).map fun j =>
      if interior1 buf.width buf.height (j / 4 % buf.width) (j / 4 / buf.width) then
        (if j % 4 = 3 then 255
         else
           magStored (sobelAccX buf.data buf.width (j / 4 % buf.width) (j / 4 / buf.width))
             (sobelAccY buf.data buf.width (j / 4 % buf.width) (j / 4 / buf.width)))
      else 0 }

/-! ### Mask Refiner, edge smoothing (refineEdges, lines 198-234). -/

/-- Kernel offsets (dy, dx) in the code's loop order, restricted to
Euclidean distance at most 2 from the centre: sqrt(dx^2+dy^2) <= 2 on these
integer offsets is exactly dx^2 + dy^2 <= 4. -/
def blurOffsets : List (ℤ × ℤ) :=
  (((List.range 5).flatMap fun a => (List.range 5).map fun b =>
      ((a : ℤ) - 2, (b : ℤ) - 2)).filter fun od => od.1 ^ 2 + od.2 ^ 2 ≤ 4)

/-- Gaussian weight exp(-(d*d) / (2*r*r)) with r = 2 and d*d = dy^2+dx^2. -/
noncomputable def gaussWeight (od : ℤ × ℤ) : ℝ :=
  Real.exp (-(((od.1 ^ 2 + od.2 ^ 2 : ℤ) : ℝ)) / 8)

/-- The weighted alpha average alphaSum / weightSum at pixel (x,y). -/
noncomputable def blurAlphaAt (d : List Nat) (w : Nat) (x y : Nat) : ℝ :=
  (blurOffsets.map fun od =>
      (byteAt d ((((y : ℤ) + od.1) * w + ((x : ℤ) + od.2)) * 4 + 3) : ℝ) * gaussWeight od).sum /
    (blurOffsets.map fun od => gaussWeight od).sum

/-- Interior-pixel test for the 2-pixel margin loops
(for y = blurRadius; y < height - blurRadius; ...). -/
def interior2 (w h x y : Nat) : Prop :=
  2 ≤ x ∧ x < w - 2 ∧ 2 ≤ y ∧ y < h - 2

instance (w h x y : Nat) : Decidable (interior2 w h x y) := by
  unfold interior2; infer_instance

/-- refineEdges: all samples copied, then the alpha of every pixel outside
the 2-pixel margin is replaced by Math.round of the weighted average
(Math.round is round-half-up, Mathlib's round; the result is an integer in
[0,255], which the clamped store keeps unchanged). -/
noncomputable def refineEdges (buf : PixelBuffer) : PixelBuffer :=
  { width := buf.width, height := buf.height,
    data := (List.range buf.data.length).map fun j =>
      if j % 4 = 3 ∧ interior2 buf.width buf.height (j / 4 % buf.width) (j / 4 / buf.width) then
        (round (blurAlphaAt buf.data buf.width (j / 4 % buf.width) (j / 4 / buf.width))).toNat
      else buf.data.getD j 0 }

/-! ### Pipeline Orchestrator (processImage, lines 237-275).  The browser
image decode and PNG re-encode are platform collaborators; the decode is
modelled by an optional PixelBuffer argument (none = the onerror path) and
the encoded output by the final buffer itself.  The onload path runs the
three stages and resolves once; the onerror path rejects with
'Failed to load image'; there is no other exit and no retry. -/

/-- The three-stage processing sequence of the onload handler. -/
noncomputable def processingPipeline (buf : PixelBuffer) : PixelBuffer :=
  refineEdges (morphologicalOperations (colorSegmentation buf))

/-- processImage: decode failure is terminal, success yields the complete
three-stage result. -/
noncomputable def processImage (decoded : Option PixelBuffer) : Except String PixelBuffer :=
  match decoded with
  | none => .error "Failed to load image"
  | some buf => .ok (processingPipeline buf)

/-! ### Simple Radial Fallback (processImageSimple, lines 278-341). -/

/-- The code's normalizedDistance at pixel (x,y): Euclidean distance to the
image centre (width/2, height/2), divided by the centre-to-corner distance
maxDistance = sqrt(centerX^2 + centerY^2). -/
noncomputable def normalizedCenterDistance (w h x y : ℕ) : ℝ :=
  Real.sqrt (((x : ℝ) - w / 2) ^ 2 + ((y : ℝ) - h / 2) ^ 2) /
    Real.sqrt (((w : ℝ) / 2) ^ 2 + ((h : ℝ) / 2) ^ 2)

/-- The radial alpha before the border cap (lines 309-314): 255 inside
normalized distance 0.6, then the linear fade
255 * (1 - (nd - 0.6) / 0.4) clamped below at 0 by Math.max. -/
noncomputable def radialAlpha (w h x y : ℕ) : ℝ :=
  if normalizedCenterDistance w h x y > 0.6 then
    max 0 (255 * (1 - (normalizedCenterDistance w h x y - 0.6) / 0.4))
  else 255

/-- The border-proximity test of lines 317-320. -/
def isEdgePixel (w h x y : ℕ) : Prop :=
  x < 10 ∨ (x : ℤ) > (w : ℤ) - 10 ∨ y < 10 ∨ (y : ℤ) > (h : ℤ) - 10

instance (w h x y : ℕ) : Decidable (isEdgePixel w h x y) := by
  unfold isEdgePixel; infer_instance

/-- The alpha byte stored by processImageSimple at pixel (x,y). -/
noncomputable def simpleStoredAlpha (w h x y : ℕ) : ℕ :=
  toUint8Clamp (if isEdgePixel w h x y then min (radialAlpha w h x y) 50 else radialAlpha w h x y)

/-- processImageSimple: same decode modelling as processImage; on success
only the alpha channel is overwritten, per pixel, with simpleStoredAlpha. -/
noncomputable def processImageSimple (decoded : Option PixelBuffer) :
    Except String PixelBuffer :=
  match decoded with
  | none => .error "Failed to load image"
  | some buf =>
    .ok { width := buf.width, height := buf.height,
          data := (List.range buf.data.length).map fun j =>
            if j % 4 = 3 then
              simpleStoredAlpha buf.width buf.height (j / 4 % buf.width) (j / 4 / buf.width)
            else buf.data.getD j 0 }

/-- Distance (in pixels) from pixel position (x,y) to the nearest image
edge, the boundary lines x = 0, x = w, y = 0, y = h. -/
def edgeDistance (w h x y : ℕ) : ℕ :=
  min (min x (w - x)) (min y (h - y))

/-! ### Definitions written from the specification text (for refinement
comparisons). -/

/-- Euclidean distance between two color triples, on the reals. -/
noncomputable def euclidDist (a b : Nat × Nat × Nat) : ℝ :=
  Real.sqrt (((a.1 : ℝ) - b.1) ^ 2 + ((a.2.1 : ℝ) - b.2.1) ^ 2 + ((a.2.2 : ℝ) - b.2.2) ^ 2)

/-- Modelled from the spec (claim C2): classify a pixel as background if its
quantized color exactly matches a background bucket, or the Euclidean
distance in raw (unquantized) RGB space from the pixel's color to some
bucket's representative color is strictly below 80. -/
noncomputable def specRawBackground (bg : List (Nat × Nat × Nat))
    (qcolor rawColor : Nat × Nat × Nat) : Prop :=
  qcolor ∈ bg ∨ ∃ c ∈ bg, euclidDist rawColor c < 80

/-- Minimum input alpha over the circular radius-2 blur neighbourhood of
(x,y).  The initial accumulator 255 is an upper bound for every byte sample,
so on byte-valued buffers this is the true neighbourhood minimum. -/
def nbhdMinAlpha (d : List Nat) (w : Nat) (x y : Nat) : Nat :=
  blurOffsets.foldl
    (fun m od => min m (byteAt d ((((y : ℤ) + od.1) * w + ((x : ℤ) + od.2)) * 4 + 3))) 255

/-- Maximum input alpha over the circular radius-2 blur neighbourhood of
(x,y); 0 is a lower bound for every sample, so this is the true maximum. -/
def nbhdMaxAlpha (d : List Nat) (w : Nat) (x y : Nat) : Nat :=
  blurOffsets.foldl
    (fun m od => max m (byteAt d ((((y : ℤ) + od.1) * w + ((x : ℤ) + od.2)) * 4 + 3))) 0

/-! ### Pointwise morphology on the plane, for the opening-idempotence
analysis (claim C3).  A buffer's alpha channel is extended by zero to a
total function on ℤ x ℤ; erosion and dilation are the 3x3 min/max with the
same accumulator initialisations as the code. -/

/-- Alpha channel of a buffer as a zero-extended function on the plane. -/
def alphaExt (buf : PixelBuffer) (X Y : ℤ) : ℕ :=
  if 0 ≤ X ∧ X < buf.width ∧ 0 ≤ Y ∧ Y < buf.height then
    buf.data.getD ((Y.toNat * buf.width + X.toNat) * 4 + 3) 0
  else 0

/-- Plane erosion: minimum over the 3x3 window, from initial value 255. -/
def erodeF (F : ℤ → ℤ → ℕ) (X Y : ℤ) : ℕ :=
  (List.range 9).foldl (fun m (i : ℕ) => min m (F (X + (i : ℤ) % 3 - 1) (Y + (i : ℤ) / 3 - 1))) 255

/-- Plane dilation: maximum over the 3x3 window, from initial value 0. -/
def dilateF (F : ℤ → ℤ → ℕ) (X Y : ℤ) : ℕ :=
  (List.range 9).foldl (fun m (i : ℕ) => max m (F (X + (i : ℤ) % 3 - 1) (Y + (i : ℤ) / 3 - 1))) 0

/-- Plane opening: erosion followed by dilation. -/
def openF (F : ℤ → ℤ → ℕ) (X Y : ℤ) : ℕ :=
  dilateF (erodeF F) X Y

/-- Every in-range border pixel (1-pixel margin) has alpha 0, and so does
every alpha sample beyond the nominal w*h*4 extent.  Every
morphologicalOperations output satisfies this. -/
def borderAlphaZero (buf : PixelBuffer) : Prop :=
  ∀ x y : ℕ, x < buf.width → y < buf.height →
    (x = 0 ∨ x = buf.width - 1 ∨ y = 0 ∨ y = buf.height - 1) →
    buf.data.getD ((y * buf.width + x) * 4 + 3) 0 = 0

/-! ### Concrete buffers used by witnesses and counterexamples -/

/-- A 1x1 grey pixel with full alpha. -/
def bufA1 : PixelBuffer := { width := 1, height := 1, data := [7, 7, 7, 255] }

/-- A 3x3 image: black border, centre pixel (95,0,0).  The centre quantizes
to (64,0,0), at quantized distance 64 from the black bucket but raw distance
95 from it. -/
def bufC2 : PixelBuffer :=
  { width := 3, height := 3,
    data := [0, 0, 0, 255, 0, 0, 0, 255, 0, 0, 0, 255,
             0, 0, 0, 255, 95, 0, 0, 255, 0, 0, 0, 255,
             0, 0, 0, 255, 0, 0, 0, 255, 0, 0, 0, 255] }

/-- The 4x4 uniform white image of the end-to-end segmentation scenario. -/
def white4 : PixelBuffer :=
  { width := 4, height := 4, data := List.replicate 64 255 }

/-- A 5x5 buffer (RGB 7, alpha 100) large enough to contain a pixel outside
the 2-pixel blur margin. -/
def bufB5 : PixelBuffer :=
  { width := 5, height := 5,
    data := (List.range 100).map fun j => if j % 4 = 3 then 100 else 7 }

/-! ### Basic lemmas about the embedding -/

/-- Indexing a range-map list. -/
theorem getD_map_range (n : Nat) (f : Nat → Nat) (j : Nat) (d : Nat) :
    (((List.range n).map f).getD j d) = if j < n then f j else d := by
  by_cases h : j < n
  · simp [List.getD, List.getElem?_map, List.getElem?_range, h]
  · have hn : (List.range n)[j]? = none := by
      rw [List.getElem?_eq_none_iff]; simpa using Nat.le_of_not_lt h
    simp [List.getD, List.getElem?_map, hn, h]

theorem foldl_min_le_init {α : Type} (l : List α) (f : α → ℕ) (a : ℕ) :
    l.foldl (fun m x => min m (f x)) a ≤ a := by
  induction l generalizing a with
  | nil => exact Nat.le_refl a
  | cons hd tl ih => exact Nat.le_trans (ih (min a (f hd))) (Nat.min_le_left _ _)

theorem foldl_min_le_elem {α : Type} (l : List α) (f : α → ℕ) (a : ℕ) {x : α} (hx : x ∈ l) :
    l.foldl (fun m x => min m (f x)) a ≤ f x := by
  induction l generalizing a with
  | nil => cases hx
  | cons hd tl ih =>
    rcases List.mem_cons.mp hx with h | h
    · subst h
      exact Nat.le_trans (foldl_min_le_init tl f _) (Nat.min_le_right _ _)
    · exact ih _ h

theorem le_foldl_min {α : Type} (l : List α) (f : α → ℕ) (a c : ℕ) (ha : c ≤ a)
    (h : ∀ x ∈ l, c ≤ f x) : c ≤ l.foldl (fun m x => min m (f x)) a := by
  induction l generalizing a with
  | nil => exact ha
  | cons hd tl ih =>
    exact ih _ (Nat.le_min.mpr ⟨ha, h hd (List.mem_cons_self hd tl)⟩)
      (fun x hx => h x (List.mem_cons_of_mem hd hx))

theorem init_le_foldl_max {α : Type} (l : List α) (f : α → ℕ) (a : ℕ) :
    a ≤ l.foldl (fun m x => max m (f x)) a := by
  induction l generalizing a with
  | nil => exact Nat.le_refl a
  | cons hd tl ih => exact Nat.le_trans (Nat.le_max_left a (f hd)) (ih (max a (f hd)))

theorem elem_le_foldl_max {α : Type} (l : List α) (f : α → ℕ) (a : ℕ) {x : α} (hx : x ∈ l) :
    f x ≤ l.foldl (fun m x => max m (f x)) a := by
  induction l generalizing a with
  | nil => cases hx
  | cons hd tl ih =>
    rcases List.mem_cons.mp hx with h | h
    · subst h
      exact Nat.le_trans (Nat.le_max_right a (f x)) (init_le_foldl_max tl f _)
    · exact ih _ h

theorem foldl_max_le {α : Type} (l : List α) (f : α → ℕ) (a c : ℕ) (ha : a ≤ c)
    (h : ∀ x ∈ l, f x ≤ c) : l.foldl (fun m x => max m (f x)) a ≤ c := by
  induction l generalizing a with
  | nil => exact ha
  | cons hd tl ih =>
    exact ih _ (Nat.max_le.mpr ⟨ha, h hd (List.mem_cons_self hd tl)⟩)
      (fun x hx => h x (List.mem_cons_of_mem hd hx))

theorem foldl_min_mono {α : Type} (l : List α) (f g : α → ℕ) (a b : ℕ) (hab : a ≤ b)
    (h : ∀ x ∈ l, f x ≤ g x) :
    l.foldl (fun m x => min m (f x)) a ≤ l.foldl (fun m x => min m (g x)) b := by
  induction l generalizing a b with
  | nil => exact hab
  | cons hd tl ih =>
    refine ih _ _ ?_ (fun x hx => h x (List.mem_cons_of_mem hd hx))
    exact min_le_min hab (h hd (List.mem_cons_self hd tl))

theorem foldl_max_mono {α : Type} (l : List α) (f g : α → ℕ) (a b : ℕ) (hab : a ≤ b)
    (h : ∀ x ∈ l, f x ≤ g x) :
    l.foldl (fun m x => max m (f x)) a ≤ l.foldl (fun m x => max m (g x)) b := by
  induction l generalizing a b with
  | nil => exact hab
  | cons hd tl ih =>
    refine ih _ _ ?_ (fun x hx => h x (List.mem_cons_of_mem hd hx))
    exact max_le_max hab (h hd (List.mem_cons_self hd tl))

theorem foldl_fn_congr {α β : Type} (l : List α) (f g : β → α → β) (a : β)
    (h : ∀ x ∈ l, ∀ m, f m x = g m x) : l.foldl f a = l.foldl g a := by
  induction l generalizing a with
  | nil => rfl
  | cons hd tl ih =>
    rw [List.foldl_cons, List.foldl_cons, h hd (List.mem_cons_self hd tl)]
    exact ih _ (fun x hx => h x (List.mem_cons_of_mem hd hx))

theorem pix_div4 (p c : ℕ) (hc : c < 4) : (p * 4 + c) / 4 = p := by omega

theorem pix_mod4 (p c : ℕ) (hc : c < 4) : (p * 4 + c) % 4 = c := by omega

theorem pix_mod_w (w x y : ℕ) (hx : x < w) : (y * w + x) % w = x := by
  rw [Nat.mul_comm, Nat.mul_add_mod, Nat.mod_eq_of_lt hx]

theorem pix_div_w (w x y : ℕ) (hx : x < w) : (y * w + x) / w = y := by
  rw [Nat.mul_comm, Nat.mul_add_div (by omega), Nat.div_eq_of_lt hx, Nat.add_zero]

/-- Math.sqrt(s) < 80 on a nonnegative integer is exactly s < 6400. -/
theorem sqrt_lt_80_iff (s : ℤ) (hs : 0 ≤ s) :
    Real.sqrt (s : ℝ) < 80 ↔ s < 6400 := by
  rw [show (80 : ℝ) = Real.sqrt 6400 by
        rw [show (6400 : ℝ) = 80 ^ 2 by norm_num, Real.sqrt_sq (by norm_num)]]
  rw [Real.sqrt_lt_sqrt_iff (by exact_mod_cast hs)]
  constructor
  · intro h; exact_mod_cast h
  · intro h; exact_mod_cast h

/-- Sample j of the colorSegmentation output. -/
theorem colorSegmentation_getD (buf : PixelBuffer) (j : ℕ) :
    (colorSegmentation buf).data.getD j 0 =
      if j < buf.data.length then
        (if j % 4 = 3 then
          (if isBackground (backgroundColors buf) (qcolorAt buf.data (j - 3)) then 0 else 255)
         else buf.data.getD j 0)
      else 0 := by
  unfold colorSegmentation
  exact getD_map_range _ _ _ _

/-- Sample j of the erosion pass. -/
theorem erodedData_getD (buf : PixelBuffer) (j : ℕ) :
    (erodedData buf).getD j 0 =
      if j < buf.data.length then
        (if j % 4 = 3 then
          (if interior1 buf.width buf.height (j / 4 % buf.width) (j / 4 / buf.width) then
            minAlpha33 buf.data buf.width (j / 4 % buf.width) (j / 4 / buf.width)
          else 0)
         else buf.data.getD j 0)
      else 0 := by
  unfold erodedData
  exact getD_map_range _ _ _ _

/-- Sample j of the morphologicalOperations output. -/
theorem morph_getD (buf : PixelBuffer) (j : ℕ) :
    (morphologicalOperations buf).data.getD j 0 =
      if j < buf.data.length then
        (if j % 4 = 3 then
          (if interior1 buf.width buf.height (j / 4 % buf.width) (j / 4 / buf.width) then
            maxAlpha33 (erodedData buf) buf.width (j / 4 % buf.width) (j / 4 / buf.width)
          else (erodedData buf).getD j 0)
         else (erodedData buf).getD j 0)
      else 0 := by
  unfold morphologicalOperations
  exact getD_map_range _ _ _ _

/-- Sample j of the refineEdges output. -/
theorem refineEdges_getD (buf : PixelBuffer) (j : ℕ) :
    (refineEdges buf).data.getD j 0 =
      if j < buf.data.length then
        (if j % 4 = 3 ∧ interior2 buf.width buf.height (j / 4 % buf.width) (j / 4 / buf.width) then
          (round (blurAlphaAt buf.data buf.width (j / 4 % buf.width) (j / 4 / buf.width))).toNat
         else buf.data.getD j 0)
      else 0 := by
  unfold refineEdges
  exact getD_map_range _ _ _ _

/-- Sample j of the detectEdges output. -/
theorem detectEdges_getD (buf : PixelBuffer) (j : ℕ) :
    (detectEdges buf).data.getD j 0 =
      if j < buf.data.length then
        (if interior1 buf.width buf.height (j / 4 % buf.width) (j / 4 / buf.width) then
          (if j % 4 = 3 then 255
           else
             magStored (sobelAccX buf.data buf.width (j / 4 % buf.width) (j / 4 / buf.width))
               (sobelAccY buf.data buf.width (j / 4 % buf.width) (j / 4 / buf.width)))
         else 0)
      else 0 := by
  unfold detectEdges
  exact getD_map_range _ _ _ _

/-- Claim C6: the Background Color Segmenter keeps every R,G,B sample of the
input unchanged, keeps the dimensions, and writes only 0 or 255 into alpha
samples. -/
theorem colorSegmentation_rgb_unchanged_alpha_binary (buf : PixelBuffer) :
    (colorSegmentation buf).width = buf.width ∧
    (colorSegmentation buf).height = buf.height ∧
    (colorSegmentation buf).data.length = buf.data.length ∧
    (∀ j, j < buf.data.length → j % 4 ≠ 3 →
      (colorSegmentation buf).data.getD j 0 = buf.data.getD j 0) ∧
    (∀ j, j < buf.data.length → j % 4 = 3 →
      (colorSegmentation buf).data.getD j 0 = 0 ∨ (colorSegmentation buf).data.getD j 0 = 255) := by
  refine ⟨rfl, rfl, by simp [colorSegmentation], ?_, ?_⟩
  · intro j hj hj4
    rw [colorSegmentation_getD, if_pos hj, if_neg hj4]
  · intro j hj hj4
    rw [colorSegmentation_getD, if_pos hj, if_pos hj4]
    by_cases hb : isBackground (backgroundColors buf) (qcolorAt buf.data (j - 3)) = true
    · left; rw [if_pos hb]
    · right; rw [if_neg hb]

/-- Witness for C6 on a concrete 3x3 buffer: an R sample is unchanged and an
alpha sample is binary. -/
theorem colorSegmentation_rgb_alpha_witness :
    (colorSegmentation bufC2).data.getD 16 0 = bufC2.data.getD 16 0 ∧
    ((colorSegmentation bufC2).data.getD 19 0 = 0 ∨
      (colorSegmentation bufC2).data.getD 19 0 = 255) :=
  ⟨(colorSegmentation_rgb_unchanged_alpha_binary bufC2).2.2.2.1 16 (by decide) (by decide),
   (colorSegmentation_rgb_unchanged_alpha_binary bufC2).2.2.2.2 19 (by decide) (by decide)⟩

/-- Counterexample to claim C1 as stated: on a 1x1 buffer with input alpha
255 the (border) pixel's output alpha is 0, not the retained input alpha:
the zero-initialised output buffer never receives the alpha channel. -/
theorem morph_border_alpha_not_retained :
    (morphologicalOperations bufA1).data.getD 3 0 ≠ bufA1.data.getD 3 0 := by decide

/-- Claim C1 as amended: morphologicalOperations keeps every R,G,B sample
unchanged, and every 1-pixel-margin border pixel of the output has alpha 0
(not the input's alpha: lines 138-142 copy only R,G,B into the
zero-initialised buffer). -/
theorem morph_rgb_unchanged_border_alpha_zero (buf : PixelBuffer)
    (hlen : buf.data.length = buf.width * buf.height * 4) :
    (∀ j, j < buf.data.length → j % 4 ≠ 3 →
      (morphologicalOperations buf).data.getD j 0 = buf.data.getD j 0) ∧
    (∀ x y : ℕ, x < buf.width → y < buf.height →
      (x = 0 ∨ x = buf.width - 1 ∨ y = 0 ∨ y = buf.height - 1) →
      (morphologicalOperations buf).data.getD ((y * buf.width + x) * 4 + 3) 0 = 0) := by
  constructor
  · intro j hj hj4
    rw [morph_getD, if_pos hj, if_neg hj4, erodedData_getD, if_pos hj, if_neg hj4]
  · intro x y hx hy hborder
    have hpix : y * buf.width + x < buf.width * buf.height := by
      have h1 : (y + 1) * buf.width ≤ buf.height * buf.width :=
        Nat.mul_le_mul_right buf.width hy
      have h2 : y * buf.width + x < (y + 1) * buf.width := by
        rw [Nat.succ_mul]; omega
      rw [Nat.mul_comm buf.width buf.height]; omega
    have hj : (y * buf.width + x) * 4 + 3 < buf.data.length := by rw [hlen]; omega
    have hd4 : ((y * buf.width + x) * 4 + 3) / 4 = y * buf.width + x := pix_div4 _ 3 (by omega)
    have hm4 : ((y * buf.width + x) * 4 + 3) % 4 = 3 := pix_mod4 _ 3 (by omega)
    have hnint : ¬ interior1 buf.width buf.height x y := by
      unfold interior1; omega
    rw [morph_getD, if_pos hj, hd4, hm4, pix_mod_w _ _ _ hx, pix_div_w _ _ _ hx,
      if_pos rfl, if_neg hnint, erodedData_getD, if_pos hj, hd4, hm4,
      pix_mod_w _ _ _ hx, pix_div_w _ _ _ hx, if_pos rfl, if_neg hnint]

/-- Witness for the amended C1 on the concrete 1x1 buffer. -/
theorem morph_rgb_border_witness :
    (morphologicalOperations bufA1).data.getD 0 0 = bufA1.data.getD 0 0 ∧
    (morphologicalOperations bufA1).data.getD 3 0 = 0 := by
  constructor
  · exact (morph_rgb_unchanged_border_alpha_zero bufA1 (by decide)).1 0 (by decide) (by decide)
  · have h := (morph_rgb_unchanged_border_alpha_zero bufA1 (by decide)).2 0 0
      (by decide) (by decide) (Or.inl rfl)
    simpa using h

/-- Claim C8: the 4x4 uniform white image: every pixel quantizes to the
bucket (224,224,224), that bucket is the (sole) top border-histogram color,
every pixel is classified background, and every output alpha is 0. -/
theorem white4_segmentation_scenario :
    (∀ p, p < 16 → qcolorAt white4.data (p * 4) = (224, 224, 224)) ∧
    backgroundColors white4 = [(224, 224, 224)] ∧
    (∀ p, p < 16 → isBackground (backgroundColors white4) (qcolorAt white4.data (p * 4)) = true) ∧
    (∀ p, p < 16 → (colorSegmentation white4).data.getD (p * 4 + 3) 0 = 0) := by
  refine ⟨?_, by decide, ?_, ?_⟩ <;> decide

theorem dist2_nonneg (a b : Nat × Nat × Nat) : 0 ≤ dist2 a b := by
  unfold dist2; positivity

/-- The code's integer comparison Math.sqrt(dist2) < 80 agrees with the
real Euclidean distance comparison. -/
theorem euclidDist_lt_80_iff (a b : Nat × Nat × Nat) :
    euclidDist a b < 80 ↔ dist2 a b < 6400 := by
  have hcast : (((dist2 a b : ℤ)) : ℝ) =
      ((a.1 : ℝ) - b.1) ^ 2 + ((a.2.1 : ℝ) - b.2.1) ^ 2 + ((a.2.2 : ℝ) - b.2.2) ^ 2 := by
    unfold dist2; push_cast; ring
  unfold euclidDist
  rw [← hcast, sqrt_lt_80_iff _ (dist2_nonneg a b)]

/-- Boolean classifier unfolded to a proposition, with the distance test
read back as a real Euclidean distance. -/
theorem isBackground_iff (bg : List (Nat × Nat × Nat)) (q : Nat × Nat × Nat) :
    isBackground bg q = true ↔ (q ∈ bg ∨ ∃ c ∈ bg, euclidDist q c < 80) := by
  unfold isBackground
  rw [Bool.or_eq_true, List.any_eq_true]
  constructor
  · rintro (hc | ⟨c, hc, hd⟩)
    · exact Or.inl (by simpa using hc)
    · exact Or.inr ⟨c, hc, (euclidDist_lt_80_iff q c).mpr (by simpa using hd)⟩
  · rintro (hc | ⟨c, hc, hd⟩)
    · exact Or.inl (by simpa using hc)
    · exact Or.inr ⟨c, hc, by simpa using (euclidDist_lt_80_iff q c).mp hd⟩

/-- Counterexample to claim C2 as stated: on the 3x3 buffer bufC2 the centre
pixel (raw color (95,0,0)) is classified background (alpha 0) although its
quantized color (64,0,0) matches no bucket and its raw-RGB distance to the
only bucket (0,0,0) is 95, not below 80: the code measures distance from the
quantized color (64,0,0), which is 64 away. -/
theorem colorSegmentation_raw_distance_counterexample :
    ¬ ((colorSegmentation bufC2).data.getD 19 0 = 0 ↔
        specRawBackground (backgroundColors bufC2) (qcolorAt bufC2.data 16)
          (rawColorAt bufC2.data 16)) := by
  intro h
  have halpha : (colorSegmentation bufC2).data.getD 19 0 = 0 := by decide
  have hspec := h.mp halpha
  unfold specRawBackground at hspec
  rcases hspec with hmem | ⟨c, hc, hlt⟩
  · revert hmem; decide
  · have hbg : backgroundColors bufC2 = [(0, 0, 0)] := by decide
    rw [hbg] at hc
    have hc0 : c = (0, 0, 0) := by simpa using hc
    subst hc0
    have hraw : rawColorAt bufC2.data 16 = (95, 0, 0) := by decide
    rw [hraw] at hlt
    have h95 : euclidDist (95, 0, 0) (0, 0, 0) = 95 := by
      unfold euclidDist
      norm_num
      rw [show (9025 : ℝ) = 95 ^ 2 by norm_num]
      exact Real.sqrt_sq (by norm_num)
    rw [h95] at hlt
    linarith

/-- Claim C2 as amended: a pixel gets alpha 0 exactly when its quantized
color matches a top-3 border bucket or the Euclidean distance from its
QUANTIZED color (not the raw color) to some bucket is below 80; otherwise
alpha is 255. -/
theorem colorSegmentation_classification (buf : PixelBuffer) (p : ℕ)
    (hp : p * 4 + 3 < buf.data.length) :
    ((colorSegmentation buf).data.getD (p * 4 + 3) 0 = 0 ↔
      (qcolorAt buf.data (p * 4) ∈ backgroundColors buf ∨
        ∃ c ∈ backgroundColors buf, euclidDist (qcolorAt buf.data (p * 4)) c < 80)) ∧
    ((colorSegmentation buf).data.getD (p * 4 + 3) 0 = 255 ↔
      ¬ (qcolorAt buf.data (p * 4) ∈ backgroundColors buf ∨
        ∃ c ∈ backgroundColors buf, euclidDist (qcolorAt buf.data (p * 4)) c < 80)) := by
  have hm4 : (p * 4 + 3) % 4 = 3 := pix_mod4 p 3 (by omega)
  have hsub : p * 4 + 3 - 3 = p * 4 := by omega
  rw [colorSegmentation_getD, if_pos hp, if_pos hm4, hsub]
  rw [← isBackground_iff (backgroundColors buf) (qcolorAt buf.data (p * 4))]
  by_cases hb : isBackground (backgroundColors buf) (qcolorAt buf.data (p * 4)) = true
  · rw [if_pos hb]
    constructor
    · exact ⟨fun _ => hb, fun _ => rfl⟩
    · exact ⟨fun h0 => absurd h0 (by norm_num), fun hn => absurd hb hn⟩
  · rw [if_neg hb]
    constructor
    · exact ⟨fun h0 => absurd h0 (by norm_num), fun hc => absurd hc hb⟩
    · exact ⟨fun _ => hb, fun _ => rfl⟩

/-- Witness for the amended C2 at the concrete centre pixel of bufC2. -/
theorem colorSegmentation_classification_witness :
    ((colorSegmentation bufC2).data.getD (4 * 4 + 3) 0 = 0 ↔
      (qcolorAt bufC2.data (4 * 4) ∈ backgroundColors bufC2 ∨
        ∃ c ∈ backgroundColors bufC2, euclidDist (qcolorAt bufC2.data (4 * 4)) c < 80)) ∧
    ((colorSegmentation bufC2).data.getD (4 * 4 + 3) 0 = 255 ↔
      ¬ (qcolorAt bufC2.data (4 * 4) ∈ backgroundColors bufC2 ∨
        ∃ c ∈ backgroundColors bufC2, euclidDist (qcolorAt bufC2.data (4 * 4)) c < 80)) :=
  colorSegmentation_classification bufC2 4 (by decide)

/-- Counterexample to claim C5 as stated: the single (border) pixel of a 1x1
image has output alpha 0, not 255: the zero-initialised output is written
only at interior pixels. -/
theorem detectEdges_alpha_not_255 : (detectEdges bufA1).data.getD 3 0 ≠ 255 := by
  rw [detectEdges_getD]
  norm_num [bufA1, interior1]

/-- Claim C5 as amended: detectEdges keeps the dimensions; every interior
pixel has R = G = B = the stored Sobel gradient magnitude of the
unweighted-average grayscale (clamped to byte range) and A = 255; every
border pixel has all four samples 0 (gradient 0, but also alpha 0 rather
than the claimed 255). -/
theorem detectEdges_dims_interior_border (buf : PixelBuffer)
    (hlen : buf.data.length = buf.width * buf.height * 4) :
    (detectEdges buf).width = buf.width ∧
    (detectEdges buf).height = buf.height ∧
    (detectEdges buf).data.length = buf.data.length ∧
    (∀ x y : ℕ, interior1 buf.width buf.height x y →
      (∀ c : ℕ, c < 3 →
        (detectEdges buf).data.getD ((y * buf.width + x) * 4 + c) 0 =
          magStored (sobelAccX buf.data buf.width x y) (sobelAccY buf.data buf.width x y)) ∧
      (detectEdges buf).data.getD ((y * buf.width + x) * 4 + 3) 0 = 255) ∧
    (∀ x y : ℕ, x < buf.width → y < buf.height → ¬ interior1 buf.width buf.height x y →
      ∀ c : ℕ, c < 4 → (detectEdges buf).data.getD ((y * buf.width + x) * 4 + c) 0 = 0) := by
  have hbound : ∀ x y : ℕ, x < buf.width → y < buf.height →
      y * buf.width + x < buf.width * buf.height := by
    intro x y hx hy
    have h1 : (y + 1) * buf.width ≤ buf.height * buf.width :=
      Nat.mul_le_mul_right buf.width hy
    have h2 : y * buf.width + x < (y + 1) * buf.width := by rw [Nat.succ_mul]; omega
    rw [Nat.mul_comm buf.width buf.height]; omega
  refine ⟨rfl, rfl, by simp [detectEdges], ?_, ?_⟩
  · intro x y hint
    have hx : x < buf.width := by
      rcases hint with ⟨_, h2, _, _⟩; omega
    have hy : y < buf.height := by
      rcases hint with ⟨_, _, _, h4⟩; omega
    have hpix := hbound x y hx hy
    constructor
    · intro c hc
      have hj : (y * buf.width + x) * 4 + c < buf.data.length := by rw [hlen]; omega
      rw [detectEdges_getD, if_pos hj, pix_div4 _ c (by omega), pix_mod4 _ c (by omega),
        pix_mod_w _ _ _ hx, pix_div_w _ _ _ hx, if_pos hint, if_neg (by omega)]
    · have hj : (y * buf.width + x) * 4 + 3 < buf.data.length := by rw [hlen]; omega
      rw [detectEdges_getD, if_pos hj, pix_div4 _ 3 (by omega), pix_mod4 _ 3 (by omega),
        pix_mod_w _ _ _ hx, pix_div_w _ _ _ hx, if_pos hint, if_pos rfl]
  · intro x y hx hy hnint c hc
    have hpix := hbound x y hx hy
    have hj : (y * buf.width + x) * 4 + c < buf.data.length := by rw [hlen]; omega
    rw [detectEdges_getD, if_pos hj, pix_div4 _ c (by omega),
      pix_mod_w _ _ _ hx, pix_div_w _ _ _ hx, if_neg hnint]

/-- Witness for the amended C5 on the concrete 5x5 buffer: an interior pixel
gets the stored magnitude and alpha 255; a border pixel sample is 0. -/
theorem detectEdges_dims_witness :
    ((detectEdges bufB5).data.getD ((1 * 5 + 1) * 4 + 0) 0 =
      magStored (sobelAccX bufB5.data 5 1 1) (sobelAccY bufB5.data 5 1 1) ∧
     (detectEdges bufB5).data.getD ((1 * 5 + 1) * 4 + 3) 0 = 255) ∧
    (detectEdges bufB5).data.getD ((0 * 5 + 0) * 4 + 3) 0 = 0 := by
  have hlen : bufB5.data.length = bufB5.width * bufB5.height * 4 := by
    simp [bufB5]
  have h := detectEdges_dims_interior_border bufB5 hlen
  exact ⟨⟨(h.2.2.2.1 1 1 (by decide)).1 0 (by decide), (h.2.2.2.1 1 1 (by decide)).2⟩,
    h.2.2.2.2 0 0 (by decide) (by decide) (by decide) 3 (by decide)⟩

/-- Claim C9: a decode failure is terminal (error, no image); a successful
decode yields exactly the complete three-stage pipeline result; there is no
partial result and no retry (the model is a single pure dispatch). -/
theorem processImage_error_or_complete :
    (∀ d : Option PixelBuffer, d = none →
      processImage d = Except.error "Failed to load image") ∧
    (∀ (d : Option PixelBuffer) (buf : PixelBuffer), d = some buf →
      processImage d =
        Except.ok (refineEdges (morphologicalOperations (colorSegmentation buf)))) :=
  ⟨fun _ hd => by rw [hd]; rfl, fun _ buf hd => by rw [hd]; rfl⟩

/-- Witness for C9 at the two concrete decode outcomes. -/
theorem processImage_witness :
    processImage none = Except.error "Failed to load image" ∧
    processImage (some bufA1) =
      Except.ok (refineEdges (morphologicalOperations (colorSegmentation bufA1))) :=
  ⟨processImage_error_or_complete.1 none rfl,
   processImage_error_or_complete.2 (some bufA1) bufA1 rfl⟩

/-- Occurrences in a two-entry flatMap over a range split into the two
per-phase predicate counts. -/
theorem count_flatMap_pair (n : ℕ) (f g : ℕ → ℕ) (c : ℕ) :
    (((List.range n).flatMap fun x => [f x, g x]).count c) =
      ((List.range n).countP fun x => f x == c) + ((List.range n).countP fun x => g x == c) := by
  induction n with
  | zero => rfl
  | succ n ih =>
    rw [List.range_succ, List.flatMap_append, List.count_append, ih,
      List.countP_append, List.countP_append]
    simp only [List.flatMap_cons, List.flatMap_nil, List.append_nil, List.count_cons,
      List.count_nil, List.countP_cons, List.countP_nil]
    by_cases h1 : f n = c <;> by_cases h2 : g n = c <;>
      simp [h1, h2] <;> omega

/-- Occurrence count of c among the values of an injective function on a
range: 1 if attained, else 0. -/
theorem countP_range_inj (f : ℕ → ℕ) (hf : ∀ a b, f a = f b → a = b) (n c : ℕ) :
    ((List.range n).countP fun x => f x == c) = if ∃ x, x < n ∧ f x = c then 1 else 0 := by
  induction n with
  | zero => simp
  | succ n ih =>
    rw [List.range_succ, List.countP_append, ih]
    by_cases hfn : f n = c
    · have hnot : ¬ ∃ x, x < n ∧ f x = c := by
        rintro ⟨x, hx, hfx⟩
        have hxn : x = n := hf x n (hfx.trans hfn.symm)
        omega
      rw [if_neg hnot, if_pos ⟨n, by omega, hfn⟩]
      simp [List.countP_cons, hfn]
    · have hiff : (∃ x, x < n + 1 ∧ f x = c) ↔ (∃ x, x < n ∧ f x = c) := by
        constructor
        · rintro ⟨x, hx, hfx⟩
          rcases Nat.lt_succ_iff_lt_or_eq.mp hx with h | h
          · exact ⟨x, h, hfx⟩
          · subst h; exact absurd hfx hfn
        · rintro ⟨x, hx, hfx⟩
          exact ⟨x, by omega, hfx⟩
      simp only [List.countP_cons, List.countP_nil, hfn]
      simp [hiff]
      exact hfn

/-- Claim C10: for images at least 2x2, each of the four corner pixels is
pushed exactly once by the row loops and once by the column loops, hence
appears exactly twice in the border sample (double histogram weight); for
degenerate width-1 or height-1 images any single pixel index appears at most
four times. -/
theorem edgePixels_corner_sampling :
    (∀ w h : ℕ, 2 ≤ w → 2 ≤ h →
      ((edgePixelsRows w h).count 0 = 1 ∧ (edgePixelsCols w h).count 0 = 1 ∧
        (edgePixels w h).count 0 = 2) ∧
      ((edgePixelsRows w h).count (w - 1) = 1 ∧ (edgePixelsCols w h).count (w - 1) = 1 ∧
        (edgePixels w h).count (w - 1) = 2) ∧
      ((edgePixelsRows w h).count ((h - 1) * w) = 1 ∧
        (edgePixelsCols w h).count ((h - 1) * w) = 1 ∧
        (edgePixels w h).count ((h - 1) * w) = 2) ∧
      ((edgePixelsRows w h).count ((h - 1) * w + (w - 1)) = 1 ∧
        (edgePixelsCols w h).count ((h - 1) * w + (w - 1)) = 1 ∧
        (edgePixels w h).count ((h - 1) * w + (w - 1)) = 2)) ∧
    (∀ w h c : ℕ, w = 1 ∨ h = 1 → (edgePixels w h).count c ≤ 4) := by
  constructor
  · intro w h hw hh
    have hW : w ≤ (h - 1) * w := Nat.le_mul_of_pos_left w (by omega)
    have inj1 : ∀ a b : ℕ, 0 * w + a = 0 * w + b → a = b := by intro a b hab; omega
    have inj2 : ∀ a b : ℕ, (h - 1) * w + a = (h - 1) * w + b → a = b := by
      intro a b hab; omega
    have inj3 : ∀ a b : ℕ, a * w + 0 = b * w + 0 → a = b := by
      intro a b hab
      have h1 : a * w = b * w := by omega
      exact Nat.eq_of_mul_eq_mul_right (by omega) h1
    have inj4 : ∀ a b : ℕ, a * w + (w - 1) = b * w + (w - 1) → a = b := by
      intro a b hab
      have h1 : a * w = b * w := by omega
      exact Nat.eq_of_mul_eq_mul_right (by omega) h1
    have rowsCount : ∀ c : ℕ, (edgePixelsRows w h).count c =
        (if ∃ x, x < w ∧ 0 * w + x = c then 1 else 0) +
        (if ∃ x, x < w ∧ (h - 1) * w + x = c then 1 else 0) := by
      intro c
      unfold edgePixelsRows
      rw [count_flatMap_pair w (fun x => 0 * w + x) (fun x => (h - 1) * w + x) c,
        countP_range_inj _ inj1, countP_range_inj _ inj2]
    have colsCount : ∀ c : ℕ, (edgePixelsCols w h).count c =
        (if ∃ y, y < h ∧ y * w + 0 = c then 1 else 0) +
        (if ∃ y, y < h ∧ y * w + (w - 1) = c then 1 else 0) := by
      intro c
      unfold edgePixelsCols
      rw [count_flatMap_pair h (fun y => y * w + 0) (fun y => y * w + (w - 1)) c,
        countP_range_inj _ inj3, countP_range_inj _ inj4]
    have totalCount : ∀ c : ℕ, (edgePixels w h).count c =
        (edgePixelsRows w h).count c + (edgePixelsCols w h).count c := by
      intro c
      unfold edgePixels
      rw [List.count_append]
    have cor1r : (edgePixelsRows w h).count 0 = 1 := by
      rw [rowsCount, if_pos ⟨0, by omega, by omega⟩, if_neg ?_]
      rintro ⟨x, hx, he⟩; omega
    have cor1c : (edgePixelsCols w h).count 0 = 1 := by
      rw [colsCount, if_pos ⟨0, by omega, by omega⟩, if_neg ?_]
      rintro ⟨y, hy, he⟩; omega
    have cor2r : (edgePixelsRows w h).count (w - 1) = 1 := by
      rw [rowsCount, if_pos ⟨w - 1, by omega, by omega⟩, if_neg ?_]
      rintro ⟨x, hx, he⟩; omega
    have cor2c : (edgePixelsCols w h).count (w - 1) = 1 := by
      rw [colsCount, if_neg ?_, if_pos ⟨0, by omega, by omega⟩]
      rintro ⟨y, hy, he⟩
      rcases Nat.eq_zero_or_pos y with h0 | h0
      · subst h0; omega
      · have hyy : w ≤ y * w := Nat.le_mul_of_pos_left w h0
        omega
    have cor3r : (edgePixelsRows w h).count ((h - 1) * w) = 1 := by
      rw [rowsCount, if_neg ?_, if_pos ⟨0, by omega, by omega⟩]
      rintro ⟨x, hx, he⟩; omega
    have cor3c : (edgePixelsCols w h).count ((h - 1) * w) = 1 := by
      rw [colsCount, if_pos ⟨h - 1, by omega, by omega⟩, if_neg ?_]
      rintro ⟨y, hy, he⟩
      have hcase : y = h - 1 ∨ y ≤ h - 2 := by omega
      rcases hcase with h0 | h0
      · subst h0; omega
      · have h2 : y * w ≤ (h - 2) * w := Nat.mul_le_mul_right w (by omega)
        have h3 : (h - 2) * w + w = (h - 1) * w := by
          rw [show h - 1 = (h - 2) + 1 by omega, Nat.succ_mul]
        omega
    have cor4r : (edgePixelsRows w h).count ((h - 1) * w + (w - 1)) = 1 := by
      rw [rowsCount, if_neg ?_, if_pos ⟨w - 1, by omega, by omega⟩]
      rintro ⟨x, hx, he⟩; omega
    have cor4c : (edgePixelsCols w h).count ((h - 1) * w + (w - 1)) = 1 := by
      rw [colsCount, if_neg ?_, if_pos ⟨h - 1, by omega, by omega⟩]
      rintro ⟨y, hy, he⟩
      have h2 : y * w ≤ (h - 1) * w := Nat.mul_le_mul_right w (by omega)
      omega
    refine ⟨⟨cor1r, cor1c, ?_⟩, ⟨cor2r, cor2c, ?_⟩, ⟨cor3r, cor3c, ?_⟩, ⟨cor4r, cor4c, ?_⟩⟩ <;>
      rw [totalCount] <;> omega
  · intro w h c hdeg
    have totalCount : (edgePixels w h).count c =
        (edgePixelsRows w h).count c + (edgePixelsCols w h).count c := by
      unfold edgePixels
      rw [List.count_append]
    rcases hdeg with h1 | h1
    · subst h1
      have hr : (edgePixelsRows 1 h).count c ≤ 2 := by
        unfold edgePixelsRows
        rw [count_flatMap_pair 1 (fun x => 0 * 1 + x) (fun x => (h - 1) * 1 + x) c]
        have b1 := List.countP_le_length (l := List.range 1) (p := fun x => 0 * 1 + x == c)
        have b2 := List.countP_le_length (l := List.range 1) (p := fun x => (h - 1) * 1 + x == c)
        simp only [List.length_range] at b1 b2
        omega
      have hc : (edgePixelsCols 1 h).count c ≤ 2 := by
        unfold edgePixelsCols
        rw [count_flatMap_pair h (fun y => y * 1 + 0) (fun y => y * 1 + (1 - 1)) c]
        simp only [Nat.sub_self]
        rw [countP_range_inj (fun y => y * 1 + 0) (fun a b hab => by simpa using hab) h c]
        split <;> omega
      omega
    · subst h1
      have hr : (edgePixelsRows w 1).count c ≤ 2 := by
        unfold edgePixelsRows
        rw [count_flatMap_pair w (fun x => 0 * w + x) (fun x => (1 - 1) * w + x) c]
        simp only [Nat.sub_self]
        rw [countP_range_inj (fun x => 0 * w + x) (fun a b hab => by simpa using hab) w c]
        split <;> omega
      have hc : (edgePixelsCols w 1).count c ≤ 2 := by
        unfold edgePixelsCols
        rw [count_flatMap_pair 1 (fun y => y * w + 0) (fun y => y * w + (w - 1)) c]
        have b1 := List.countP_le_length (l := List.range 1) (p := fun y => y * w + 0 == c)
        have b2 := List.countP_le_length (l := List.range 1) (p := fun y => y * w + (w - 1) == c)
        simp only [List.length_range] at b1 b2
        omega
      omega

/-- Witness for C10 at concrete sizes 2x2 and 1x1. -/
theorem edgePixels_corner_witness :
    (edgePixels 2 2).count 0 = 2 ∧ (edgePixels 1 1).count 0 ≤ 4 :=
  ⟨(edgePixels_corner_sampling.1 2 2 (by norm_num) (by norm_num)).1.2.2,
   edgePixels_corner_sampling.2 1 1 0 (Or.inl rfl)⟩

theorem roundTiesToEven_intCast (n : ℤ) : roundTiesToEven (n : ℝ) = n := by
  unfold roundTiesToEven
  rw [Int.floor_intCast, sub_self]
  norm_num

theorem floor_le_roundTiesToEven (x : ℝ) : ⌊x⌋ ≤ roundTiesToEven x := by
  unfold roundTiesToEven
  split_ifs <;> omega

theorem roundTiesToEven_le_floor_add_one (x : ℝ) : roundTiesToEven x ≤ ⌊x⌋ + 1 := by
  unfold roundTiesToEven
  split_ifs <;> omega

theorem roundTiesToEven_le_int (x : ℝ) (n : ℤ) (h : x ≤ (n : ℝ)) : roundTiesToEven x ≤ n := by
  have hfl : ⌊x⌋ ≤ n := by
    have hm := Int.floor_mono h
    rwa [Int.floor_intCast] at hm
  rcases lt_or_eq_of_le hfl with hlt | heq
  · exact le_trans (roundTiesToEven_le_floor_add_one x) (by omega)
  · have hxn : x = (n : ℝ) := le_antisymm h (by rw [← heq]; exact Int.floor_le x)
    rw [hxn, roundTiesToEven_intCast]

theorem int_le_roundTiesToEven (n : ℤ) (x : ℝ) (h : (n : ℝ) ≤ x) : n ≤ roundTiesToEven x :=
  le_trans (Int.le_floor.mpr h) (floor_le_roundTiesToEven x)

theorem toUint8Clamp_intCast (n : ℤ) (h0 : 0 ≤ n) (h255 : n ≤ 255) :
    toUint8Clamp (n : ℝ) = n.toNat := by
  unfold toUint8Clamp
  by_cases hz : (n : ℝ) ≤ 0
  · have hn0 : n = 0 := le_antisymm (by exact_mod_cast hz) h0
    rw [if_pos hz, hn0]
    rfl
  · rw [if_neg hz]
    by_cases h2 : (255 : ℝ) ≤ (n : ℝ)
    · have hn255 : n = 255 := le_antisymm h255 (by exact_mod_cast h2)
      rw [if_pos h2, hn255]
      rfl
    · rw [if_neg h2, roundTiesToEven_intCast]

theorem toUint8Clamp_le_50 (x : ℝ) (h : x ≤ 50) : toUint8Clamp x ≤ 50 := by
  unfold toUint8Clamp
  split_ifs with h1 h2
  · omega
  · linarith
  · have hb := roundTiesToEven_le_int x 50 (by exact_mod_cast h)
    omega

theorem le_toUint8Clamp_50 (x : ℝ) (h : (50 : ℝ) ≤ x) : 50 ≤ toUint8Clamp x := by
  unfold toUint8Clamp
  split_ifs with h1 h2
  · linarith
  · omega
  · have hb := int_le_roundTiesToEven 50 x (by exact_mod_cast h)
    omega

/-- The clamped store commutes with the 50-cap of the radial fallback. -/
theorem toUint8Clamp_min_50 (x : ℝ) : toUint8Clamp (min x 50) = min (toUint8Clamp x) 50 := by
  rcases le_total x 50 with hx | hx
  · rw [min_eq_left hx]
    exact (min_eq_left (toUint8Clamp_le_50 x hx)).symm
  · rw [min_eq_right hx, min_eq_right (le_toUint8Clamp_50 x hx)]
    rw [show (50 : ℝ) = ((50 : ℤ) : ℝ) by norm_num,
      toUint8Clamp_intCast 50 (by norm_num) (by norm_num)]
    rfl

/-- Claim C4: every pixel strictly within 10 pixels of the nearest image
edge has its stored alpha capped at 50 (stored = min(radial stored, 50));
on a 200x200 image pixel (100,100) stores alpha 255 and pixel (5,100)
stores alpha 50; any pixel at normalized centre distance exactly 1 stores
alpha 0 (the edge-band side condition of the claim is not even needed:
the radial value is already 0 there). -/
theorem simpleRadial_cap_and_values :
    (∀ w h x y : ℕ, x < w → y < h → edgeDistance w h x y < 10 →
      simpleStoredAlpha w h x y = min (toUint8Clamp (radialAlpha w h x y)) 50) ∧
    simpleStoredAlpha 200 200 100 100 = 255 ∧
    simpleStoredAlpha 200 200 5 100 = 50 ∧
    (∀ w h x y : ℕ, normalizedCenterDistance w h x y = 1 →
      simpleStoredAlpha w h x y = 0) := by
  refine ⟨?_, ?_, ?_, ?_⟩
  · intro w h x y hx hy hdist
    have hedge : isEdgePixel w h x y := by
      unfold edgeDistance at hdist
      unfold isEdgePixel
      omega
    unfold simpleStoredAlpha
    rw [if_pos hedge, toUint8Clamp_min_50]
  · have hnd : normalizedCenterDistance 200 200 100 100 = 0 := by
      unfold normalizedCenterDistance
      norm_num
    have hrad : radialAlpha 200 200 100 100 = 255 := by
      unfold radialAlpha
      rw [hnd]
      norm_num
    have hedge : ¬ isEdgePixel 200 200 100 100 := by decide
    unfold simpleStoredAlpha
    rw [if_neg hedge, hrad,
      show (255 : ℝ) = ((255 : ℤ) : ℝ) by norm_num,
      toUint8Clamp_intCast 255 (by norm_num) (by norm_num)]
    rfl
  · have hs_pos : 0 < Real.sqrt 20000 := Real.sqrt_pos.mpr (by norm_num)
    have hs_lt : Real.sqrt 20000 < 142 := (Real.sqrt_lt' (by norm_num)).mpr (by norm_num)
    have hs_gt : (141 : ℝ) < Real.sqrt 20000 := (Real.lt_sqrt (by norm_num)).mpr (by norm_num)
    have hnd_eq : normalizedCenterDistance 200 200 5 100 = 95 / Real.sqrt 20000 := by
      unfold normalizedCenterDistance
      norm_num
      rw [show ((9025 : ℝ)) = 95 ^ 2 by norm_num, Real.sqrt_sq (by norm_num : (0:ℝ) ≤ 95)]
    have hnd_gt : normalizedCenterDistance 200 200 5 100 > 0.6 := by
      rw [hnd_eq, gt_iff_lt, lt_div_iff₀ hs_pos]
      nlinarith [hs_lt]
    have hnd_lt : normalizedCenterDistance 200 200 5 100 < 0.674 := by
      rw [hnd_eq, div_lt_iff₀ hs_pos]
      nlinarith [hs_gt]
    have hrad_ge : (50 : ℝ) ≤ radialAlpha 200 200 5 100 := by
      unfold radialAlpha
      rw [if_pos hnd_gt]
      have hv : (50 : ℝ) ≤
          255 * (1 - (normalizedCenterDistance 200 200 5 100 - 0.6) / 0.4) := by
        have hrw : (normalizedCenterDistance 200 200 5 100 - 0.6) / 0.4 =
            2.5 * normalizedCenterDistance 200 200 5 100 - 1.5 := by ring
        rw [hrw]
        nlinarith [hnd_lt]
      exact le_trans hv (le_max_right 0 _)
    have hedge5 : isEdgePixel 200 200 5 100 := Or.inl (by norm_num)
    unfold simpleStoredAlpha
    rw [if_pos hedge5, min_eq_right hrad_ge,
      show (50 : ℝ) = ((50 : ℤ) : ℝ) by norm_num,
      toUint8Clamp_intCast 50 (by norm_num) (by norm_num)]
    rfl
  · intro w h x y hnd
    have hrad0 : radialAlpha w h x y = 0 := by
      unfold radialAlpha
      rw [hnd, if_pos (by norm_num)]
      norm_num
    unfold simpleStoredAlpha
    by_cases he : isEdgePixel w h x y
    · rw [if_pos he, hrad0]
      rw [show min (0 : ℝ) 50 = 0 by norm_num]
      unfold toUint8Clamp
      rw [if_pos (le_refl (0 : ℝ))]
    · rw [if_neg he, hrad0]
      unfold toUint8Clamp
      rw [if_pos (le_refl (0 : ℝ))]

/-- Witness for C4: the edge-band cap hypothesis holds at (5,100) on
200x200, and normalized distance 1 is attained at the corner of a 2x2
image. -/
theorem simpleRadial_witness :
    (edgeDistance 200 200 5 100 < 10 ∧
      simpleStoredAlpha 200 200 5 100 =
        min (toUint8Clamp (radialAlpha 200 200 5 100)) 50) ∧
    (normalizedCenterDistance 2 2 0 0 = 1 ∧ simpleStoredAlpha 2 2 0 0 = 0) := by
  have hnd : normalizedCenterDistance 2 2 0 0 = 1 := by
    unfold normalizedCenterDistance
    norm_num
  exact ⟨⟨by decide,
      simpleRadial_cap_and_values.1 200 200 5 100 (by decide) (by decide) (by decide)⟩,
    ⟨hnd, simpleRadial_cap_and_values.2.2.2 2 2 0 0 hnd⟩⟩

theorem sum_map_le_sum_map {α : Type} (l : List α) (f g : α → ℝ)
    (h : ∀ x ∈ l, f x ≤ g x) : (l.map f).sum ≤ (l.map g).sum := by
  induction l with
  | nil => simp
  | cons hd tl ih =>
    simp only [List.map_cons, List.sum_cons]
    exact add_le_add (h hd (List.mem_cons_self hd tl))
      (ih fun x hx => h x (List.mem_cons_of_mem hd hx))

theorem sum_map_nonneg {α : Type} (l : List α) (f : α → ℝ)
    (h : ∀ x ∈ l, 0 ≤ f x) : 0 ≤ (l.map f).sum := by
  induction l with
  | nil => simp
  | cons hd tl ih =>
    simp only [List.map_cons, List.sum_cons]
    have h1 := h hd (List.mem_cons_self hd tl)
    have h2 := ih fun x hx => h x (List.mem_cons_of_mem hd hx)
    linarith

theorem sum_map_pos {α : Type} (l : List α) (f : α → ℝ) (hne : l ≠ [])
    (h : ∀ x ∈ l, 0 < f x) : 0 < (l.map f).sum := by
  cases l with
  | nil => exact absurd rfl hne
  | cons hd tl =>
    simp only [List.map_cons, List.sum_cons]
    have h1 := h hd (List.mem_cons_self hd tl)
    have h2 : 0 ≤ (tl.map f).sum :=
      sum_map_nonneg tl f fun x hx => le_of_lt (h x (List.mem_cons_of_mem hd hx))
    linarith

theorem round_mono_real (x y : ℝ) (h : x ≤ y) : round x ≤ round y := by
  rw [round_eq, round_eq]
  exact Int.floor_mono (by linarith)

theorem gaussWeight_pos (od : ℤ × ℤ) : 0 < gaussWeight od := Real.exp_pos _

/-- The blurred alpha is a weighted average: it lies between the
neighbourhood minimum and maximum. -/
theorem blurAlphaAt_bounds (d : List Nat) (w x y : Nat) :
    (nbhdMinAlpha d w x y : ℝ) ≤ blurAlphaAt d w x y ∧
      blurAlphaAt d w x y ≤ (nbhdMaxAlpha d w x y : ℝ) := by
  have hW : 0 < (blurOffsets.map fun od => gaussWeight od).sum :=
    sum_map_pos _ _ (by decide) (fun od _ => gaussWeight_pos od)
  have hlo : ∀ od ∈ blurOffsets,
      (nbhdMinAlpha d w x y : ℝ) * gaussWeight od ≤
        (byteAt d ((((y : ℤ) + od.1) * w + ((x : ℤ) + od.2)) * 4 + 3) : ℝ) * gaussWeight od := by
    intro od hod
    have hb : nbhdMinAlpha d w x y ≤
        byteAt d ((((y : ℤ) + od.1) * w + ((x : ℤ) + od.2)) * 4 + 3) := by
      unfold nbhdMinAlpha
      exact foldl_min_le_elem blurOffsets
        (fun od => byteAt d ((((y : ℤ) + od.1) * w + ((x : ℤ) + od.2)) * 4 + 3)) 255 hod
    exact mul_le_mul_of_nonneg_right (by exact_mod_cast hb) (le_of_lt (gaussWeight_pos od))
  have hhi : ∀ od ∈ blurOffsets,
      (byteAt d ((((y : ℤ) + od.1) * w + ((x : ℤ) + od.2)) * 4 + 3) : ℝ) * gaussWeight od ≤
        (nbhdMaxAlpha d w x y : ℝ) * gaussWeight od := by
    intro od hod
    have hb : byteAt d ((((y : ℤ) + od.1) * w + ((x : ℤ) + od.2)) * 4 + 3) ≤
        nbhdMaxAlpha d w x y := by
      unfold nbhdMaxAlpha
      exact elem_le_foldl_max blurOffsets
        (fun od => byteAt d ((((y : ℤ) + od.1) * w + ((x : ℤ) + od.2)) * 4 + 3)) 0 hod
    exact mul_le_mul_of_nonneg_right (by exact_mod_cast hb) (le_of_lt (gaussWeight_pos od))
  unfold blurAlphaAt
  constructor
  · rw [le_div_iff₀ hW]
    calc (nbhdMinAlpha d w x y : ℝ) * (blurOffsets.map fun od => gaussWeight od).sum
        = (blurOffsets.map fun od => (nbhdMinAlpha d w x y : ℝ) * gaussWeight od).sum := by
          rw [List.sum_map_mul_left]
      _ ≤ _ := sum_map_le_sum_map _ _ _ hlo
  · rw [div_le_iff₀ hW]
    calc (blurOffsets.map fun od =>
          (byteAt d ((((y : ℤ) + od.1) * w + ((x : ℤ) + od.2)) * 4 + 3) : ℝ) * gaussWeight od).sum
        ≤ (blurOffsets.map fun od => (nbhdMaxAlpha d w x y : ℝ) * gaussWeight od).sum :=
          sum_map_le_sum_map _ _ _ hhi
      _ = (nbhdMaxAlpha d w x y : ℝ) * (blurOffsets.map fun od => gaussWeight od).sum := by
          rw [List.sum_map_mul_left]

/-- Claim C7: refineEdges changes no R,G,B sample and no alpha sample in the
2-pixel border margin, and every processed pixel's output alpha lies within
[min, max] of the input alpha over the circular radius-2 neighbourhood used
(the rounded weighted average creates no new extrema). -/
theorem refineEdges_no_new_extrema (buf : PixelBuffer)
    (hlen : buf.data.length = buf.width * buf.height * 4) :
    (∀ j, j < buf.data.length → j % 4 ≠ 3 →
      (refineEdges buf).data.getD j 0 = buf.data.getD j 0) ∧
    (∀ x y : ℕ, x < buf.width → y < buf.height →
      ¬ interior2 buf.width buf.height x y →
      (refineEdges buf).data.getD ((y * buf.width + x) * 4 + 3) 0 =
        buf.data.getD ((y * buf.width + x) * 4 + 3) 0) ∧
    (∀ x y : ℕ, interior2 buf.width buf.height x y →
      nbhdMinAlpha buf.data buf.width x y ≤
        (refineEdges buf).data.getD ((y * buf.width + x) * 4 + 3) 0 ∧
      (refineEdges buf).data.getD ((y * buf.width + x) * 4 + 3) 0 ≤
        nbhdMaxAlpha buf.data buf.width x y) := by
  have hbound : ∀ x y : ℕ, x < buf.width → y < buf.height →
      y * buf.width + x < buf.width * buf.height := by
    intro x y hx hy
    have h1 : (y + 1) * buf.width ≤ buf.height * buf.width :=
      Nat.mul_le_mul_right buf.width hy
    have h2 : y * buf.width + x < (y + 1) * buf.width := by rw [Nat.succ_mul]; omega
    rw [Nat.mul_comm buf.width buf.height]; omega
  refine ⟨?_, ?_, ?_⟩
  · intro j hj hj4
    rw [refineEdges_getD, if_pos hj, if_neg (by intro hc; exact hj4 hc.1)]
  · intro x y hx hy hnint
    have hj : (y * buf.width + x) * 4 + 3 < buf.data.length := by
      have := hbound x y hx hy; rw [hlen]; omega
    rw [refineEdges_getD, if_pos hj, pix_div4 _ 3 (by omega),
      pix_mod_w _ _ _ hx, pix_div_w _ _ _ hx,
      if_neg (by intro hc; exact hnint hc.2)]
  · intro x y hint
    have hx : x < buf.width := by rcases hint with ⟨_, h2, _, _⟩; omega
    have hy : y < buf.height := by rcases hint with ⟨_, _, _, h4⟩; omega
    have hj : (y * buf.width + x) * 4 + 3 < buf.data.length := by
      have := hbound x y hx hy; rw [hlen]; omega
    rw [refineEdges_getD, if_pos hj, pix_div4 _ 3 (by omega), pix_mod4 _ 3 (by omega),
      pix_mod_w _ _ _ hx, pix_div_w _ _ _ hx, if_pos ⟨rfl, hint⟩]
    have hb := blurAlphaAt_bounds buf.data buf.width x y
    have hlo : (nbhdMinAlpha buf.data buf.width x y : ℤ) ≤
        round (blurAlphaAt buf.data buf.width x y) := by
      have := round_mono_real _ _ hb.1
      rwa [show ((nbhdMinAlpha buf.data buf.width x y : ℝ)) =
          ((nbhdMinAlpha buf.data buf.width x y : ℕ) : ℝ) by norm_num,
        round_natCast] at this
    have hhi : round (blurAlphaAt buf.data buf.width x y) ≤
        (nbhdMaxAlpha buf.data buf.width x y : ℤ) := by
      have := round_mono_real _ _ hb.2
      rwa [show ((nbhdMaxAlpha buf.data buf.width x y : ℝ)) =
          ((nbhdMaxAlpha buf.data buf.width x y : ℕ) : ℝ) by norm_num,
        round_natCast] at this
    omega

/-- Witness for C7 at the interior pixel (2,2) of the concrete 5x5 buffer. -/
theorem refineEdges_no_new_extrema_witness :
    nbhdMinAlpha bufB5.data 5 2 2 ≤ (refineEdges bufB5).data.getD ((2 * 5 + 2) * 4 + 3) 0 ∧
    (refineEdges bufB5).data.getD ((2 * 5 + 2) * 4 + 3) 0 ≤ nbhdMaxAlpha bufB5.data 5 2 2 :=
  (refineEdges_no_new_extrema bufB5 (by simp [bufB5])).2.2 2 2 (by decide)

/-! ### Opening idempotence on the plane (claim C3) -/

theorem offset_cancel1 (X : ℤ) (k : ℕ) (hk : k < 9) :
    X + (k : ℤ) % 3 - 1 + ((8 - k : ℕ) : ℤ) % 3 - 1 = X := by
  have hc : ((8 - k : ℕ) : ℤ) = 8 - (k : ℤ) := by
    push_cast [Nat.cast_sub (by omega : k ≤ 8)]
    ring
  rw [hc]
  interval_cases k <;> (norm_num; try omega)

theorem offset_cancel2 (Y : ℤ) (k : ℕ) (hk : k < 9) :
    Y + (k : ℤ) / 3 - 1 + ((8 - k : ℕ) : ℤ) / 3 - 1 = Y := by
  have hc : ((8 - k : ℕ) : ℤ) = 8 - (k : ℤ) := by
    push_cast [Nat.cast_sub (by omega : k ≤ 8)]
    ring
  rw [hc]
  interval_cases k <;> (norm_num; try omega)

theorem erodeF_le_shift (F : ℤ → ℤ → ℕ) (X Y : ℤ) (i : ℕ) (hi : i < 9) :
    erodeF F X Y ≤ F (X + (i : ℤ) % 3 - 1) (Y + (i : ℤ) / 3 - 1) := by
  unfold erodeF
  exact foldl_min_le_elem (List.range 9)
    (fun k : ℕ => F (X + (k : ℤ) % 3 - 1) (Y + (k : ℤ) / 3 - 1)) 255 (List.mem_range.mpr hi)

theorem shift_le_dilateF (F : ℤ → ℤ → ℕ) (X Y : ℤ) (i : ℕ) (hi : i < 9) :
    F (X + (i : ℤ) % 3 - 1) (Y + (i : ℤ) / 3 - 1) ≤ dilateF F X Y := by
  unfold dilateF
  exact elem_le_foldl_max (List.range 9)
    (fun k : ℕ => F (X + (k : ℤ) % 3 - 1) (Y + (k : ℤ) / 3 - 1)) 0 (List.mem_range.mpr hi)

theorem erodeF_le_self (F : ℤ → ℤ → ℕ) (X Y : ℤ) : erodeF F X Y ≤ F X Y := by
  have h := erodeF_le_shift F X Y 4 (by omega)
  have e1 : X + ((4 : ℕ) : ℤ) % 3 - 1 = X := by norm_num
  have e2 : Y + ((4 : ℕ) : ℤ) / 3 - 1 = Y := by norm_num
  rwa [e1, e2] at h

theorem erodeF_le_255 (F : ℤ → ℤ → ℕ) (X Y : ℤ) : erodeF F X Y ≤ 255 := by
  unfold erodeF
  exact foldl_min_le_init (List.range 9)
    (fun k : ℕ => F (X + (k : ℤ) % 3 - 1) (Y + (k : ℤ) / 3 - 1)) 255

/-- Openings are anti-extensive: the opened value never exceeds the original
(the structuring element is symmetric, so the centre is always reachable). -/
theorem openF_le_self (F : ℤ → ℤ → ℕ) (X Y : ℤ) : openF F X Y ≤ F X Y := by
  unfold openF dilateF
  apply foldl_max_le
  · exact Nat.zero_le _
  · intro k hk
    rw [List.mem_range] at hk
    have h := erodeF_le_shift F (X + (k : ℤ) % 3 - 1) (Y + (k : ℤ) / 3 - 1) (8 - k) (by omega)
    rwa [offset_cancel1 X k hk, offset_cancel2 Y k hk] at h

/-- Closings are extensive on values bounded by the erosion cap 255. -/
theorem le_erodeF_dilateF (G : ℤ → ℤ → ℕ) (hG : ∀ X Y, G X Y ≤ 255) (X Y : ℤ) :
    G X Y ≤ erodeF (dilateF G) X Y := by
  unfold erodeF
  apply le_foldl_min
  · exact hG X Y
  · intro k hk
    rw [List.mem_range] at hk
    have h := shift_le_dilateF G (X + (k : ℤ) % 3 - 1) (Y + (k : ℤ) / 3 - 1) (8 - k) (by omega)
    rwa [offset_cancel1 X k hk, offset_cancel2 Y k hk] at h

theorem erodeF_mono (F G : ℤ → ℤ → ℕ) (h : ∀ X Y, F X Y ≤ G X Y) (X Y : ℤ) :
    erodeF F X Y ≤ erodeF G X Y := by
  unfold erodeF
  exact foldl_min_mono (List.range 9)
    (fun k : ℕ => F (X + (k : ℤ) % 3 - 1) (Y + (k : ℤ) / 3 - 1))
    (fun k : ℕ => G (X + (k : ℤ) % 3 - 1) (Y + (k : ℤ) / 3 - 1)) 255 255 (le_refl 255)
    (fun k _ => h _ _)

/-- Eroding an opening gives back the erosion (the standard adjunction
argument, specialised to the 3x3 window with the code's accumulator caps). -/
theorem erodeF_openF (F : ℤ → ℤ → ℕ) (X Y : ℤ) :
    erodeF (openF F) X Y = erodeF F X Y := by
  apply le_antisymm
  · exact erodeF_mono (openF F) F (fun A B => openF_le_self F A B) X Y
  · exact le_erodeF_dilateF (erodeF F) (fun A B => erodeF_le_255 F A B) X Y

/-- Idempotence of the plane opening. -/
theorem openF_idem (F : ℤ → ℤ → ℕ) (X Y : ℤ) :
    openF (openF F) X Y = openF F X Y := by
  show dilateF (erodeF (openF F)) X Y = dilateF (erodeF F) X Y
  rw [show erodeF (openF F) = erodeF F from
    funext fun A => funext fun B => erodeF_openF F A B]

theorem morph_width (buf : PixelBuffer) :
    (morphologicalOperations buf).width = buf.width := rfl

theorem pixelBuffer_ext (p q : PixelBuffer) (hw : p.width = q.width)
    (hh : p.height = q.height) (hd : p.data = q.data) : p = q := by
  cases p; cases q; simp_all

theorem byteAt_natCast (d : List Nat) (n : ℕ) : byteAt d ((n : ℕ) : ℤ) = d.getD n 0 := by
  unfold byteAt
  rw [if_pos (by positivity), Int.toNat_natCast]

theorem morph_data_length (buf : PixelBuffer) :
    (morphologicalOperations buf).data.length = buf.data.length := by
  simp [morphologicalOperations]

theorem erodedData_length (buf : PixelBuffer) :
    (erodedData buf).length = buf.data.length := by
  simp [erodedData]

/-- An in-range point of the alpha extension reads the buffer's alpha
sample. -/
theorem alphaExt_inRange (buf : PixelBuffer) (qx qy : ℕ)
    (hqx : qx < buf.width) (hqy : qy < buf.height) :
    alphaExt buf (qx : ℤ) (qy : ℤ) = buf.data.getD ((qy * buf.width + qx) * 4 + 3) 0 := by
  unfold alphaExt
  rw [if_pos ⟨by positivity, by exact_mod_cast hqx, by positivity, by exact_mod_cast hqy⟩]
  simp

/-- Outside the strict 1-pixel interior the alpha extension of a
zero-border buffer reads 0. -/
theorem alphaExt_zero_of_not_interior (buf : PixelBuffer) (hbz : borderAlphaZero buf)
    (X Y : ℤ)
    (h : ¬ (1 ≤ X ∧ X < (buf.width : ℤ) - 1 ∧ 1 ≤ Y ∧ Y < (buf.height : ℤ) - 1)) :
    alphaExt buf X Y = 0 := by
  unfold alphaExt
  split_ifs with hin
  · obtain ⟨h0x, hxw, h0y, hyh⟩ := hin
    exact hbz X.toNat Y.toNat (by omega) (by omega) (by omega)
  · rfl

/-- RGB samples pass through morphologicalOperations unchanged. -/
theorem morph_rgb_getD (buf : PixelBuffer) (j : ℕ) (hj : j < buf.data.length)
    (h4 : j % 4 ≠ 3) :
    (morphologicalOperations buf).data.getD j 0 = buf.data.getD j 0 := by
  rw [morph_getD, if_pos hj, if_neg h4, erodedData_getD, if_pos hj, if_neg h4]

/-- Alpha samples of non-interior pixels are 0 after morphologicalOperations. -/
theorem morph_alpha_zero_j (buf : PixelBuffer) (j : ℕ) (h4 : j % 4 = 3)
    (hnint : ¬ interior1 buf.width buf.height (j / 4 % buf.width) (j / 4 / buf.width)) :
    (morphologicalOperations buf).data.getD j 0 = 0 := by
  by_cases hj : j < buf.data.length
  · rw [morph_getD, if_pos hj, if_pos h4, if_neg hnint, erodedData_getD, if_pos hj,
      if_pos h4, if_neg hnint]
  · rw [morph_getD, if_neg hj]

/-- Every morphologicalOperations output is a zero-border buffer. -/
theorem borderAlphaZero_morph (buf : PixelBuffer) :
    borderAlphaZero (morphologicalOperations buf) := by
  intro x y hx hy hb
  have hx' : x < buf.width := hx
  have hy' : y < buf.height := hy
  have hb' : x = 0 ∨ x = buf.width - 1 ∨ y = 0 ∨ y = buf.height - 1 := hb
  have hm4 : ((y * buf.width + x) * 4 + 3) % 4 = 3 := pix_mod4 _ 3 (by omega)
  have hd4 : ((y * buf.width + x) * 4 + 3) / 4 = y * buf.width + x := pix_div4 _ 3 (by omega)
  have hnint : ¬ interior1 buf.width buf.height
      (((y * buf.width + x) * 4 + 3) / 4 % buf.width)
      (((y * buf.width + x) * 4 + 3) / 4 / buf.width) := by
    rw [hd4, pix_mod_w _ _ _ hx', pix_div_w _ _ _ hx']
    unfold interior1
    omega
  exact morph_alpha_zero_j buf ((y * buf.width + x) * 4 + 3) hm4 hnint

/-- At an interior pixel the code's erosion equals the plane erosion of the
alpha extension: the whole 3x3 window lies in range. -/
theorem minAlpha33_eq_erodeF (buf : PixelBuffer) (x y : ℕ)
    (hint : interior1 buf.width buf.height x y) :
    minAlpha33 buf.data buf.width x y = erodeF (alphaExt buf) (x : ℤ) (y : ℤ) := by
  obtain ⟨hx1, hxw, hy1, hyh⟩ := hint
  refine foldl_fn_congr (List.range 9)
      (fun m i => min m (byteAt buf.data
        ((((y : ℤ) + (i : ℤ) / 3 - 1) * buf.width + ((x : ℤ) + (i : ℤ) % 3 - 1)) * 4 + 3)))
      (fun m k => min m (alphaExt buf ((x : ℤ) + (k : ℤ) % 3 - 1) ((y : ℤ) + (k : ℤ) / 3 - 1)))
      255 ?_
  intro k hk m
  rw [List.mem_range] at hk
  beta_reduce
  congr 1
  have hqx : (x : ℤ) + (k : ℤ) % 3 - 1 = ((x + k % 3 - 1 : ℕ) : ℤ) := by omega
  have hqy : (y : ℤ) + (k : ℤ) / 3 - 1 = ((y + k / 3 - 1 : ℕ) : ℤ) := by omega
  rw [hqx, hqy]
  have hidx : (((y + k / 3 - 1 : ℕ) : ℤ) * buf.width + ((x + k % 3 - 1 : ℕ) : ℤ)) * 4 + 3 =
      (((y + k / 3 - 1) * buf.width + (x + k % 3 - 1)) * 4 + 3 : ℕ) := by
    push_cast
    ring
  rw [hidx, byteAt_natCast,
    alphaExt_inRange buf (x + k % 3 - 1) (y + k / 3 - 1) (by omega) (by omega)]

/-- The eroded buffer read at any in-range pixel equals the plane erosion of
the alpha extension (zero-border inputs only: at border pixels both sides
are 0). -/
theorem byteAt_erodedData_eq (buf : PixelBuffer) (hbz : borderAlphaZero buf)
    (qx qy : ℕ) (hqx : qx < buf.width) (hqy : qy < buf.height) :
    byteAt (erodedData buf) (((qy * buf.width + qx) * 4 + 3 : ℕ) : ℤ) =
      erodeF (alphaExt buf) (qx : ℤ) (qy : ℤ) := by
  rw [byteAt_natCast]
  have hm4 : ((qy * buf.width + qx) * 4 + 3) % 4 = 3 := pix_mod4 _ 3 (by omega)
  have hd4 : ((qy * buf.width + qx) * 4 + 3) / 4 = qy * buf.width + qx := pix_div4 _ 3 (by omega)
  by_cases hidx : (qy * buf.width + qx) * 4 + 3 < buf.data.length
  · rw [erodedData_getD, if_pos hidx, if_pos hm4, hd4, pix_mod_w _ _ _ hqx, pix_div_w _ _ _ hqx]
    by_cases hint : interior1 buf.width buf.height qx qy
    · rw [if_pos hint]
      exact minAlpha33_eq_erodeF buf qx qy hint
    · rw [if_neg hint]
      have h1 : erodeF (alphaExt buf) (qx : ℤ) (qy : ℤ) ≤ alphaExt buf (qx : ℤ) (qy : ℤ) :=
        erodeF_le_self _ _ _
    -- the pixel is on the border, where the extension is 0
      have h2 : alphaExt buf (qx : ℤ) (qy : ℤ) = 0 := by
        apply alphaExt_zero_of_not_interior buf hbz
        unfold interior1 at hint
        omega
      omega
  · rw [List.getD_eq_default _ 0 (by rw [erodedData_length]; omega)]
    have h1 : erodeF (alphaExt buf) (qx : ℤ) (qy : ℤ) ≤ alphaExt buf (qx : ℤ) (qy : ℤ) :=
      erodeF_le_self _ _ _
    have h2 : alphaExt buf (qx : ℤ) (qy : ℤ) = 0 := by
      rw [alphaExt_inRange buf qx qy hqx hqy, List.getD_eq_default _ 0 (by omega)]
    omega

set_option maxHeartbeats 1000000 in
/-- Bridge: for zero-border buffers the morphology stage computes exactly
the plane opening of the alpha extension. -/
theorem alphaExt_morph (buf : PixelBuffer) (hbz : borderAlphaZero buf) (X Y : ℤ) :
    alphaExt (morphologicalOperations buf) X Y = openF (alphaExt buf) X Y := by
  by_cases hstrict :
      1 ≤ X ∧ X < (buf.width : ℤ) - 1 ∧ 1 ≤ Y ∧ Y < (buf.height : ℤ) - 1
  · obtain ⟨h1, h2, h3, h4⟩ := hstrict
    have hX : X = ((X.toNat : ℕ) : ℤ) := by omega
    have hY : Y = ((Y.toNat : ℕ) : ℤ) := by omega
    rw [hX, hY]
    have hint : interior1 buf.width buf.height X.toNat Y.toNat := by
      unfold interior1
      omega
    have hxw : X.toNat < buf.width := by omega
    have hyh : Y.toNat < buf.height := by omega
    rw [alphaExt_inRange (morphologicalOperations buf) X.toNat Y.toNat hxw hyh]
    simp only [morph_width]
    have hm4 : ((Y.toNat * buf.width + X.toNat) * 4 + 3) % 4 = 3 := pix_mod4 _ 3 (by omega)
    have hd4 : ((Y.toNat * buf.width + X.toNat) * 4 + 3) / 4 = Y.toNat * buf.width + X.toNat :=
      pix_div4 _ 3 (by omega)
    by_cases hj : (Y.toNat * buf.width + X.toNat) * 4 + 3 < buf.data.length
    · rw [morph_getD, if_pos hj, if_pos hm4, hd4, pix_mod_w _ _ _ hxw, pix_div_w _ _ _ hxw,
        if_pos hint]
      show maxAlpha33 (erodedData buf) buf.width X.toNat Y.toNat =
        dilateF (erodeF (alphaExt buf)) ((X.toNat : ℕ) : ℤ) ((Y.toNat : ℕ) : ℤ)
      refine foldl_fn_congr (List.range 9)
          (fun m i => max m (byteAt (erodedData buf)
            ((((Y.toNat : ℤ) + (i : ℤ) / 3 - 1) * buf.width +
              ((X.toNat : ℤ) + (i : ℤ) % 3 - 1)) * 4 + 3)))
          (fun m k => max m (erodeF (alphaExt buf)
            (((X.toNat : ℕ) : ℤ) + (k : ℤ) % 3 - 1) (((Y.toNat : ℕ) : ℤ) + (k : ℤ) / 3 - 1)))
          0 ?_
      intro k hk m
      rw [List.mem_range] at hk
      beta_reduce
      obtain ⟨hi1, hi2, hi3, hi4⟩ := hint
      have hqx : (X.toNat : ℤ) + (k : ℤ) % 3 - 1 = ((X.toNat + k % 3 - 1 : ℕ) : ℤ) := by omega
      have hqy : (Y.toNat : ℤ) + (k : ℤ) / 3 - 1 = ((Y.toNat + k / 3 - 1 : ℕ) : ℤ) := by omega
      have hAB : byteAt (erodedData buf)
          ((((Y.toNat : ℤ) + (k : ℤ) / 3 - 1) * buf.width +
            ((X.toNat : ℤ) + (k : ℤ) % 3 - 1)) * 4 + 3) =
          erodeF (alphaExt buf)
            (((X.toNat : ℕ) : ℤ) + (k : ℤ) % 3 - 1) (((Y.toNat : ℕ) : ℤ) + (k : ℤ) / 3 - 1) := by
        rw [hqx, hqy]
        have hidx : (((Y.toNat + k / 3 - 1 : ℕ) : ℤ) * buf.width +
            ((X.toNat + k % 3 - 1 : ℕ) : ℤ)) * 4 + 3 =
            (((Y.toNat + k / 3 - 1) * buf.width + (X.toNat + k % 3 - 1)) * 4 + 3 : ℕ) := by
          push_cast
          ring
        rw [hidx]
        exact byteAt_erodedData_eq buf hbz (X.toNat + k % 3 - 1) (Y.toNat + k / 3 - 1)
          (by omega) (by omega)
      rw [hAB]
    · rw [morph_getD, if_neg hj]
      have hle := openF_le_self (alphaExt buf) ((X.toNat : ℕ) : ℤ) ((Y.toNat : ℕ) : ℤ)
      have hF : alphaExt buf ((X.toNat : ℕ) : ℤ) ((Y.toNat : ℕ) : ℤ) =
          buf.data.getD ((Y.toNat * buf.width + X.toNat) * 4 + 3) 0 :=
        alphaExt_inRange buf X.toNat Y.toNat hxw hyh
      have h0 : buf.data.getD ((Y.toNat * buf.width + X.toNat) * 4 + 3) 0 = 0 :=
        List.getD_eq_default _ 0 (by omega)
      omega
  · have hL : alphaExt (morphologicalOperations buf) X Y = 0 := by
      apply alphaExt_zero_of_not_interior (morphologicalOperations buf)
        (borderAlphaZero_morph buf) X Y
      exact hstrict
    have hle := openF_le_self (alphaExt buf) X Y
    have hF0 : alphaExt buf X Y = 0 := alphaExt_zero_of_not_interior buf hbz X Y hstrict
    omega

set_option maxHeartbeats 2000000 in
/-- Claim C3: an already-opened mask is a fixed point of a further opening.
The thinner-than-the-structuring-element hypothesis of the claim is not
needed: any output of morphologicalOperations is zero on its 1-pixel border,
on such buffers the stage computes the plane opening of the alpha extension
(alphaExt_morph), and the plane opening is idempotent. -/
theorem morph_opening_idempotent (M : PixelBuffer)
    (hM : ∃ X, M = morphologicalOperations X) :
    morphologicalOperations (morphologicalOperations M) = morphologicalOperations M := by
  have hbzM : borderAlphaZero M := by
    obtain ⟨X0, hX0⟩ := hM
    rw [hX0]
    exact borderAlphaZero_morph X0
  have hfunM : alphaExt (morphologicalOperations M) = openF (alphaExt M) :=
    funext fun A => funext fun B => alphaExt_morph M hbzM A B
  have hAE : ∀ X Y : ℤ,
      alphaExt (morphologicalOperations (morphologicalOperations M)) X Y =
        alphaExt (morphologicalOperations M) X Y := by
    intro X Y
    rw [alphaExt_morph (morphologicalOperations M) (borderAlphaZero_morph M) X Y, hfunM,
      openF_idem (alphaExt M) X Y, ← hfunM]
  have hlen : (morphologicalOperations (morphologicalOperations M)).data.length =
      (morphologicalOperations M).data.length := by
    rw [morph_data_length, morph_data_length]
  have hentry : ∀ j : ℕ,
      (morphologicalOperations (morphologicalOperations M)).data.getD j 0 =
        (morphologicalOperations M).data.getD j 0 := by
    intro j
    by_cases h4 : j % 4 = 3
    · by_cases hin : 0 < M.width ∧ j / 4 / M.width < M.height
      · obtain ⟨hw0, hyh⟩ := hin
        have hx' : j / 4 % M.width < M.width := Nat.mod_lt _ hw0
        have hp : j = ((j / 4 / M.width) * M.width + (j / 4 % M.width)) * 4 + 3 := by
          have h5 := Nat.div_add_mod (j / 4) M.width
          have h6 := Nat.div_add_mod j 4
          have h7 : (j / 4 / M.width) * M.width = M.width * (j / 4 / M.width) :=
            Nat.mul_comm _ _
          omega
        rw [hp]
        have e1 : (morphologicalOperations (morphologicalOperations M)).data.getD
            (((j / 4 / M.width) * M.width + (j / 4 % M.width)) * 4 + 3) 0 =
            alphaExt (morphologicalOperations (morphologicalOperations M))
              ((j / 4 % M.width : ℕ) : ℤ) ((j / 4 / M.width : ℕ) : ℤ) :=
          (alphaExt_inRange (morphologicalOperations (morphologicalOperations M))
            (j / 4 % M.width) (j / 4 / M.width) hx' hyh).symm
        have e2 : alphaExt (morphologicalOperations M)
            ((j / 4 % M.width : ℕ) : ℤ) ((j / 4 / M.width : ℕ) : ℤ) =
            (morphologicalOperations M).data.getD
              (((j / 4 / M.width) * M.width + (j / 4 % M.width)) * 4 + 3) 0 :=
          alphaExt_inRange (morphologicalOperations M)
            (j / 4 % M.width) (j / 4 / M.width) hx' hyh
        exact e1.trans ((hAE _ _).trans e2)
      · have hnint : ¬ interior1 M.width M.height (j / 4 % M.width) (j / 4 / M.width) := by
          unfold interior1
          rcases Nat.eq_zero_or_pos M.width with hw | hw
          · rw [hw]
            omega
          · have hyh : M.height ≤ j / 4 / M.width := by
              rcases Nat.lt_or_ge (j / 4 / M.width) M.height with h | h
              · exact absurd ⟨hw, h⟩ hin
              · exact h
            omega
        exact (morph_alpha_zero_j (morphologicalOperations M) j h4 hnint).trans
          (morph_alpha_zero_j M j h4 hnint).symm
    · by_cases hj : j < M.data.length
      · have hj1 : j < (morphologicalOperations M).data.length := by
          rw [morph_data_length]
          exact hj
        rw [morph_rgb_getD (morphologicalOperations M) j hj1 h4,
          morph_rgb_getD M j hj h4]
      · have hj1 : ¬ j < (morphologicalOperations M).data.length := by
          rw [morph_data_length]
          exact hj
        have hj2 : ¬ j < (morphologicalOperations (morphologicalOperations M)).data.length := by
          rw [morph_data_length, morph_data_length]
          exact hj
        rw [List.getD_eq_default _ 0 (by omega), List.getD_eq_default _ 0 (by omega)]
  refine pixelBuffer_ext _ _ ?_ ?_ ?_
  · exact rfl
  · exact rfl
  · apply List.ext_getElem hlen
    intro i h1 h2
    rw [← List.getD_eq_getElem _ 0 h1, ← List.getD_eq_getElem _ 0 h2]
    exact hentry i

/-- Witness for C3: the opened 5x5 buffer is a fixed point of the opening. -/
theorem morph_opening_idempotent_witness :
    morphologicalOperations (morphologicalOperations (morphologicalOperations bufB5)) =
      morphologicalOperations (morphologicalOperations bufB5) :=
  morph_opening_idempotent (morphologicalOperations bufB5) ⟨bufB5, rfl⟩

/-- The rounded magnitude sqrt(s)/3 never falls exactly halfway between two
integers: a tie would force 4*s = (6m+3)^2, even = odd.  Hence round
half-to-even and round half-up agree on every stored magnitude and the
executable characterisation below is exact. -/
theorem sqrt_div_three_no_tie (n : ℕ) :
    Real.sqrt n / 3 - ⌊Real.sqrt n / 3⌋ ≠ 1 / 2 := by
  intro h
  set m := ⌊Real.sqrt n / 3⌋ with hm
  have h2 : Real.sqrt n = 3 * (m : ℝ) + 3 / 2 := by linarith
  have h4 : ((n : ℕ) : ℝ) = (3 * (m : ℝ) + 3 / 2) ^ 2 := by
    rw [← Real.sq_sqrt (by positivity : (0 : ℝ) ≤ ((n : ℕ) : ℝ)), h2]
  have h5 : ((4 * n : ℕ) : ℝ) = ((6 * m + 3 : ℤ) : ℝ) ^ 2 := by
    push_cast
    push_cast at h4
    nlinarith [h4]
  have h6 : (4 * n : ℤ) = (6 * m + 3) ^ 2 := by exact_mod_cast h5
  have h7 : Even (4 * (n : ℤ)) := ⟨2 * n, by ring⟩
  have hodd : Odd (6 * m + 3 : ℤ) := ⟨3 * m + 1, by ring⟩
  have h8 : Odd ((6 * m + 3 : ℤ) ^ 2) := hodd.pow
  rw [show (4 * (n : ℤ)) = (4 * n : ℤ) by norm_cast, h6] at h7
  exact (Int.not_odd_iff_even.mpr h7) h8

/-- Away from ties, round half-to-even is round half-up. -/
theorem roundTiesToEven_eq_round (x : ℝ) (h : x - ⌊x⌋ ≠ 1 / 2) :
    roundTiesToEven x = round x := by
  unfold roundTiesToEven
  rw [round_eq]
  have hfl := Int.floor_le x
  have hfu := Int.lt_floor_add_one x
  rcases lt_trichotomy (x - ⌊x⌋) (1 / 2) with hlt | heq | hgt
  · rw [if_pos hlt]
    symm
    rw [Int.floor_eq_iff]
    constructor
    · linarith
    · have hcast : ((⌊x⌋ : ℝ)) + 1 = ((⌊x⌋ + 1 : ℤ) : ℝ) := by push_cast; ring
      linarith
  · exact absurd heq h

  · rw [if_neg (by linarith), if_pos hgt]
    symm
    rw [Int.floor_eq_iff]
    constructor
    · push_cast
      linarith
    · push_cast
      linarith

/-- Executable characterisation of the stored Sobel magnitude. -/
theorem magStored_eq_magStoredNat (p q : ℤ) : magStored p q = magStoredNat p q := by
  have hs0 : (0 : ℤ) ≤ p ^ 2 + q ^ 2 := by positivity
  set n := (p ^ 2 + q ^ 2).toNat with hn
  have hsn : ((p ^ 2 + q ^ 2 : ℤ) : ℝ) = ((n : ℕ) : ℝ) := by
    have : ((n : ℕ) : ℤ) = p ^ 2 + q ^ 2 := Int.toNat_of_nonneg hs0
    exact_mod_cast this.symm
  have h4n : (4 * (p ^ 2 + q ^ 2)).toNat = 4 * n := by omega
  unfold magStored magStoredNat toUint8Clamp
  rw [hsn, h4n]
  split_ifs with h1 h2
  · have hsqrt0 : Real.sqrt n = 0 := le_antisymm (by linarith) (Real.sqrt_nonneg _)
    have hn0 : n = 0 := by
      have hx := Real.sqrt_eq_zero'.mp hsqrt0
      exact_mod_cast le_antisymm (by exact_mod_cast hx) (Nat.zero_le n)
    rw [hn0]
    norm_num
  · have h765 : (765 : ℝ) ≤ Real.sqrt n := by linarith
    have hnge : (585225 : ℝ) ≤ ((n : ℕ) : ℝ) := by
      have hc := (Real.le_sqrt (by norm_num) (by positivity)).mp h765
      nlinarith [hc]
    have hnge2 : 585225 ≤ n := by exact_mod_cast hnge
    have hsq : 1530 ≤ Nat.sqrt (4 * n) := by
      have hmono := Nat.sqrt_le_sqrt (show 1530 ^ 2 ≤ 4 * n by omega)
      rwa [Nat.sqrt_eq' 1530] at hmono
    symm
    rw [min_eq_right (by omega)]
  · have htie := sqrt_div_three_no_tie n
    rw [roundTiesToEven_eq_round _ htie, round_eq]
    have hsqrt4 : Real.sqrt ((4 * n : ℕ) : ℝ) = 2 * Real.sqrt n := by
      push_cast
      rw [show ((4 : ℝ) * n) = 2 ^ 2 * n by ring, Real.sqrt_mul (by positivity) _,
        Real.sqrt_sq (by norm_num : (0 : ℝ) ≤ 2)]
    have hplus : Real.sqrt n / 3 + 1 / 2 = (Real.sqrt ((4 * n : ℕ) : ℝ) + 3) / 6 := by
      rw [hsqrt4]
      ring
    rw [hplus]
    have hfl : (⌊(Real.sqrt ((4 * n : ℕ) : ℝ) + 3) / 6⌋).toNat = (Nat.sqrt (4 * n) + 3) / 6 := by
      rw [Int.floor_toNat,
        show ((6 : ℝ)) = ((6 : ℕ) : ℝ) by norm_num, Nat.floor_div_nat,
        show ((3 : ℝ)) = ((3 : ℕ) : ℝ) by norm_num,
        Nat.floor_add_nat (Real.sqrt_nonneg _), Real.nat_floor_real_sqrt_eq_nat_sqrt]
    rw [hfl]
    have hxlt : Real.sqrt n / 3 < 255 := by
      rcases lt_or_ge (Real.sqrt n / 3) 255 with h | h
      · exact h
      · exact absurd (by linarith) h2
    have h765 : Real.sqrt n < 765 := by linarith
    have hnlt : ((n : ℕ) : ℝ) < 585225 := by
      have hc := (Real.sqrt_lt' (by norm_num : (0 : ℝ) < 765)).mp h765
      nlinarith [hc]
    have hnlt2 : n < 585225 := by exact_mod_cast hnlt
    have hsqlt : Nat.sqrt (4 * n) < 1530 := by
      rw [Nat.sqrt_lt']
      omega
    rw [min_eq_left (by omega)]

/-- Witness for C8 at the first pixel of the white 4x4 image. -/
theorem white4_segmentation_witness :
    qcolorAt white4.data (0 * 4) = (224, 224, 224) ∧
    (colorSegmentation white4).data.getD (0 * 4 + 3) 0 = 0 :=
  ⟨white4_segmentation_scenario.1 0 (by decide),
   white4_segmentation_scenario.2.2.2 0 (by decide)⟩
